import Mathlib

/-!
Shallow embedding of the ONNX function dispatcher from
`src/torch_onnx/_dispatcher.py`: the type-compatibility table, argument
separation, perfect-match checking and nearest-match scoring of
`_OnnxSchemaChecker`, the complex/real candidate partition, registry lookup
with default-overload fallback, and the tie-broken nearest-match selection of
`OnnxFunctionDispatcher`.

Python dicts are modelled as association lists (insertion order preserved,
assignment overwrites in place, lookup finds the first matching key), Python
sets of strings as lists compared up to membership, and the raised
`ValueError`/`RuntimeError` failures as an explicit `DispatchError` sum.
-/

deriving instance DecidableEq for Except

/-- Torch dtypes appearing as `torch.dtype` keys of
`_TORCH_DTYPE_TO_COMPATIBLE_ONNX_TYPE_STRINGS` in `_dispatcher.py`
(`tbool` stands for `torch.bool`). -/
inductive TorchDtype where
  | bfloat16 | tbool | float64 | float32 | float16
  | float8_e4m3fn | float8_e4m3fnuz | float8_e5m2 | float8_e5m2fnuz
  | int16 | int32 | int64 | int8 | uint8
  | complex32 | complex64 | complex128
deriving DecidableEq

/-- The `torch.dtype` rows of `_TORCH_DTYPE_TO_COMPATIBLE_ONNX_TYPE_STRINGS`
(the Python-type rows `str`/`int`/`float`/`bool`/`complex` of the same dict are
inlined at their use sites in `find_onnx_data_type`, where the source reaches
them via `type(torch_input)`). -/
def from_torch_dtype_to_onnx_dtype_str : TorchDtype → List String
  | .bfloat16 => ["tensor(bfloat16)"]
  | .tbool => ["tensor(bool)"]
  | .float64 => ["tensor(double)"]
  | .float32 => ["tensor(float)"]
  | .float16 => ["tensor(float16)"]
  | .float8_e4m3fn => ["tensor(float8_e4m3fn)"]
  | .float8_e4m3fnuz => ["tensor(float8_e4m3fnuz)"]
  | .float8_e5m2 => ["tensor(float8_e5m2)"]
  | .float8_e5m2fnuz => ["tensor(float8_e5m2fnuz)"]
  | .int16 => ["tensor(int16)"]
  | .int32 => ["tensor(int32)"]
  | .int64 => ["tensor(int64)"]
  | .int8 => ["tensor(int8)"]
  | .uint8 => ["tensor(uint8)"]
  | .complex32 => ["tensor(float16)"]
  | .complex64 => ["tensor(float)"]
  | .complex128 => ["tensor(double)"]

/-- `torch.is_complex` on a tensor dtype. -/
def TorchDtype.isComplex : TorchDtype → Bool
  | .complex32 => true
  | .complex64 => true
  | .complex128 => true
  | _ => false

/-- The distinct onnx type strings occurring in the value sets of
`_TORCH_DTYPE_TO_COMPATIBLE_ONNX_TYPE_STRINGS`; `_OPTIONAL_ONNX_DTYPE_STR` is
`optional(v)` for each of them. -/
def all_compatible_onnx_type_strs : List String :=
  ["tensor(bfloat16)", "tensor(bool)", "tensor(double)", "tensor(float)",
   "tensor(float16)", "tensor(float8_e4m3fn)", "tensor(float8_e4m3fnuz)",
   "tensor(float8_e5m2)", "tensor(float8_e5m2fnuz)", "tensor(int16)",
   "tensor(int32)", "tensor(int64)", "tensor(int8)", "tensor(uint8)",
   "tensor(string)"]

/-- `_is_optional_onnx_dtype_str`: membership in `_OPTIONAL_ONNX_DTYPE_STR`. -/
def is_optional_onnx_dtype_str (onnx_type_str : String) : Bool :=
  all_compatible_onnx_type_strs.any (fun v => decide (onnx_type_str = "optional(" ++ v ++ ")"))

/-- Runtime values flowing through the dispatcher: an fx node carrying a
tensor-like `val` (whose `dtype` may be unavailable), the Python scalar types
the source inspects with `isinstance`/`type`, lists, `None`, and a
representative of any other (unrecognized) Python value. Scalar payloads are
omitted: the dispatcher only ever branches on the value's type and on
`None`-ness, never on the numeric content. -/
inductive Value where
  | tensor (dtype : Option TorchDtype)
  | vint
  | vfloat
  | vbool
  | vstr
  | vcomplex
  | vlist (elems : List Value)
  | vnone
  | vunknown

mutual

/-- Structural boolean equality on runtime values (the nested `vlist`
constructor rules out the derived instance). -/
def Value.beq : Value → Value → Bool
  | .tensor a, .tensor b => decide (a = b)
  | .vint, .vint => true
  | .vfloat, .vfloat => true
  | .vbool, .vbool => true
  | .vstr, .vstr => true
  | .vcomplex, .vcomplex => true
  | .vlist xs, .vlist ys => Value.beqList xs ys
  | .vnone, .vnone => true
  | .vunknown, .vunknown => true
  | _, _ => false

/-- Structural boolean equality on lists of runtime values. -/
def Value.beqList : List Value → List Value → Bool
  | [], [] => true
  | x :: xs, y :: ys => Value.beq x y && Value.beqList xs ys
  | _, _ => false

end

mutual

/-- `Value.beq` decides propositional equality. -/
def Value.beq_iff : ∀ a b : Value, (Value.beq a b = true) ↔ a = b
  | .tensor d, b => by cases b <;> simp [Value.beq]
  | .vint, b => by cases b <;> simp [Value.beq]
  | .vfloat, b => by cases b <;> simp [Value.beq]
  | .vbool, b => by cases b <;> simp [Value.beq]
  | .vstr, b => by cases b <;> simp [Value.beq]
  | .vcomplex, b => by cases b <;> simp [Value.beq]
  | .vnone, b => by cases b <;> simp [Value.beq]
  | .vunknown, b => by cases b <;> simp [Value.beq]
  | .vlist xs, b => by
    cases b <;> simp [Value.beq]
    exact Value.beqList_iff xs _

/-- `Value.beqList` decides propositional equality of lists. -/
def Value.beqList_iff : ∀ xs ys : List Value, (Value.beqList xs ys = true) ↔ xs = ys
  | [], [] => by simp [Value.beqList]
  | [], _ :: _ => by simp [Value.beqList]
  | _ :: _, [] => by simp [Value.beqList]
  | x :: xs, y :: ys => by
    rw [show Value.beqList (x :: xs) (y :: ys) = (Value.beq x y && Value.beqList xs ys) from rfl]
    rw [Bool.and_eq_true, Value.beq_iff x y, Value.beqList_iff xs ys]
    simp

end

instance : DecidableEq Value := fun a b =>
  decidable_of_iff (Value.beq a b = true) (Value.beq_iff a b)

/-- `isinstance(x, TensorLike)` for the protocol of `_dispatcher.py`. -/
def isTensorLike : Value → Bool
  | .tensor _ => true
  | _ => false

/-- Typed rendering of the dispatcher's raised failures: the two
`ValueError`s of `_filter_or_keep_complex` (COMPLEX/REAL), the `ValueError` of
`_find_the_perfect_or_nearest_match_onnxfunction` when no candidate has a
score, the `ValueError` of `get_function_overloads` when both lookups miss,
and the `RuntimeError` of `_find_onnx_data_type`. -/
inductive DispatchError where
  | noMatchingVariant (wantedComplex : Bool)
  | noSymbolicFunction
  | unregisteredOperator
  | unknownInputType
deriving DecidableEq

mutual

/-- `_find_onnx_data_type`: compatible onnx type strings for one runtime
value. A nonempty list recurses on its first non-`None` element (all-`None`
lists recurse on `None`, giving the empty set) and wraps in `seq(...)` exactly
when some element is tensor-like; `None`, dtype-less tensors and empty lists
yield the empty (wildcard) set; anything unrecognized raises. -/
def find_onnx_data_type : Value → Except DispatchError (List String)
  | .tensor (some d) => .ok (from_torch_dtype_to_onnx_dtype_str d)
  | .tensor none => .ok []
  | .vint => .ok ["tensor(int16)", "tensor(int32)", "tensor(int64)"]
  | .vfloat => .ok ["tensor(float16)", "tensor(float)", "tensor(double)"]
  | .vbool => .ok ["tensor(int32)", "tensor(int64)", "tensor(bool)"]
  | .vstr => .ok ["tensor(string)"]
  | .vcomplex => .ok ["tensor(float)", "tensor(double)"]
  | .vnone => .ok []
  | .vlist [] => .ok []
  | .vlist (x :: xs) =>
    match first_non_none_data_type (x :: xs) with
    | .error e => .error e
    | .ok set_dtype =>
      if (x :: xs).any isTensorLike then
        .ok (set_dtype.map (fun s => "seq(" ++ s ++ ")"))
      else
        .ok set_dtype
  | .vunknown => .error .unknownInputType

/-- The compatible type set of `next((item for item in torch_input if item is
not None), None)`: `_find_onnx_data_type` of the first non-`None` element, or
of `None` itself (the empty set) when every element is `None`. -/
def first_non_none_data_type : List Value → Except DispatchError (List String)
  | [] => .ok []
  | v :: vs =>
    if v = Value.vnone then first_non_none_data_type vs
    else find_onnx_data_type v

end

/-- `_is_arg_with_complex_dtype`: complex detection on one node argument; a
list defers entirely to its first element (the source `for` loop returns on
its first iteration). -/
def is_arg_with_complex_dtype : Value → Bool
  | .tensor (some d) => d.isComplex
  | .vlist (x :: _) => is_arg_with_complex_dtype x
  | _ => false

/-- Onnx attribute kinds produced by
`_from_python_type_to_onnx_attribute_type` plus `OTHER` for any declared kind
outside that range. -/
inductive AttrType where
  | FLOAT | INT | STRING | FLOATS | INTS | STRINGS | OTHER
deriving DecidableEq

/-- `_from_python_type_to_onnx_attribute_type`, keyed on the Python type of
the value (`type(attribute)`); types absent from both dicts give `none`
(`dict.get` returning `None`). -/
def from_python_type_to_onnx_attribute_type (v : Value) (is_sequence : Bool) : Option AttrType :=
  match v, is_sequence with
  | .vfloat, false => some .FLOAT
  | .vint, false => some .INT
  | .vstr, false => some .STRING
  | .vbool, false => some .INT
  | .vfloat, true => some .FLOATS
  | .vint, true => some .INTS
  | .vstr, true => some .STRINGS
  | .vbool, true => some .INTS
  | _, _ => none

/-- One entry of `onnxfunction.param_schemas()` as consumed by
`_separate_input_attributes_from_arguments`: `is_attribute` is the negation of
`is_input`. The source never consults `required`; the field is carried because
onnxscript's `ParamSchema` declares it and the separation routine is
documented to fail on unsatisfied required parameters. -/
structure ParamSchema where
  name : String
  is_input : Bool
  is_variadic_input : Bool
  required : Bool
  default : Value
deriving DecidableEq

/-- One entry of `op_schema.attributes`: the declared kind and whether
`default_value.type != AttributeProto.UNDEFINED` (a default exists). -/
structure SchemaAttribute where
  name : String
  attrType : AttrType
  hasDefault : Bool
deriving DecidableEq

/-- The parts of an onnx `OpSchema` the checker reads: the `type_str` of each
formal input, the declared attributes, and the type-constraint table mapping a
`type_str` to its allowed type strings. -/
structure OpSchema where
  inputs : List String
  attributes : List SchemaAttribute
  typeConstraints : List (String × List String)
deriving DecidableEq

/-- The schemas `_OnnxSchemaChecker` derives from one onnx function:
`param_schemas()` and `op_schema`. -/
structure FunctionSchema where
  params : List ParamSchema
  opSchema : OpSchema
deriving DecidableEq

/-- `_registration.ONNXFunction` as used by the dispatcher: the wrapped onnx
function (an opaque identifier here), the custom/complex flags, and the
schemas the checker extracts from it. `op_full_name` is dropped: the source
uses it only inside error message text. -/
structure ONNXFunction where
  fn : Nat
  is_custom : Bool
  is_complex : Bool
  schema : FunctionSchema
deriving DecidableEq

/-- Lookup in an association-list rendering of a Python dict: first matching
key. -/
def lookup_kw (m : List (String × Value)) (k : String) : Option Value :=
  (m.find? (fun p => decide (p.1 = k))).map (fun p => p.2)

/-- `dict.pop(k)`: remove the entry for `k`. -/
def erase_kw (m : List (String × Value)) (k : String) : List (String × Value) :=
  m.eraseP (fun p => decide (p.1 = k))

/-- `dict[k] = v`: overwrite in place if the key exists, else append. -/
def dict_insert (m : List (String × Value)) (k : String) (v : Value) : List (String × Value) :=
  if m.any (fun p => decide (p.1 = k)) then
    m.map (fun p => if p.1 = k then (k, v) else p)
  else
    m ++ [(k, v)]

/-- `self.attributes[param.name].default_value.type != AttributeProto.UNDEFINED`;
a name missing from the schema attributes would raise `KeyError` in the source
and cannot occur for the schemas onnxscript generates, so it is rendered as
`false`. -/
def has_default_attr (schemaAttrs : List SchemaAttribute) (n : String) : Bool :=
  match schemaAttrs.find? (fun a => decide (a.name = n)) with
  | some a => a.hasDefault
  | none => false

/-- The `for i, param in enumerate(param_schemas)` loop of
`_separate_input_attributes_from_arguments`, with the mutated state
(`onnx_inputs`, `onnx_attributes`, `copy_kwargs`, the `args` list that a
variadic parameter empties, and the running index) passed explicitly. -/
def separate_loop (schemaAttrs : List SchemaAttribute) (fill_defaults : Bool) :
    List ParamSchema → Nat → List Value → List Value → List (String × Value) →
    List (String × Value) → List Value × List (String × Value) × List (String × Value)
  | [], _, _, onnx_inputs, onnx_attributes, copy_kwargs =>
    (onnx_inputs, onnx_attributes, copy_kwargs)
  | p :: ps, i, args, onnx_inputs, onnx_attributes, copy_kwargs =>
    if p.is_variadic_input then
      separate_loop schemaAttrs fill_defaults ps (i + 1) []
        (onnx_inputs ++ args.drop i) onnx_attributes copy_kwargs
    else if h : i < args.length then
      if p.is_input then
        separate_loop schemaAttrs fill_defaults ps (i + 1) args
          (onnx_inputs ++ [args.get ⟨i, h⟩]) onnx_attributes copy_kwargs
      else
        separate_loop schemaAttrs fill_defaults ps (i + 1) args onnx_inputs
          (dict_insert onnx_attributes p.name (args.get ⟨i, h⟩)) copy_kwargs
    else
      match lookup_kw copy_kwargs p.name with
      | some v =>
        if p.is_input then
          separate_loop schemaAttrs fill_defaults ps (i + 1) args
            (onnx_inputs ++ [v]) onnx_attributes (erase_kw copy_kwargs p.name)
        else
          separate_loop schemaAttrs fill_defaults ps (i + 1) args onnx_inputs
            (dict_insert onnx_attributes p.name v) copy_kwargs
      | none =>
        if !p.is_input && has_default_attr schemaAttrs p.name then
          separate_loop schemaAttrs fill_defaults ps (i + 1) args onnx_inputs
            (if fill_defaults then dict_insert onnx_attributes p.name p.default
             else onnx_attributes) copy_kwargs
        else if p.is_input then
          separate_loop schemaAttrs fill_defaults ps (i + 1) args
            (if fill_defaults then onnx_inputs ++ [Value.vnone] else onnx_inputs)
            onnx_attributes copy_kwargs
        else
          separate_loop schemaAttrs fill_defaults ps (i + 1) args onnx_inputs
            onnx_attributes copy_kwargs

/-- The trailing loop of `_separate_input_attributes_from_arguments`: leftover
keyword arguments are added unless the key is already an attribute or the
value is `None`. -/
def add_leftover_kwargs (onnx_attributes : List (String × Value))
    (copy_kwargs : List (String × Value)) : List (String × Value) :=
  copy_kwargs.foldl
    (fun acc kv =>
      if (lookup_kw acc kv.1).isNone && !(decide (kv.2 = Value.vnone)) then
        dict_insert acc kv.1 kv.2
      else acc)
    onnx_attributes

/-- `_separate_input_attributes_from_arguments`: split the call's
`(args, kwargs)` into onnx inputs and onnx attributes. Note the source as
written raises no error for an unsatisfied required parameter (despite its own
docstring): a missing input slot is filled with `None` under `fill_defaults`,
and a missing attribute without default is silently skipped. -/
def separate_input_attributes_from_arguments (schemaAttrs : List SchemaAttribute)
    (param_schemas : List ParamSchema) (args : List Value)
    (kwargs : List (String × Value)) (fill_defaults : Bool) :
    List Value × List (String × Value) :=
  let r := separate_loop schemaAttrs fill_defaults param_schemas 0 args [] [] kwargs
  (r.1, add_leftover_kwargs r.2.1 r.2.2)

/-- `self.type_constraints[schema_input.type_str]`; a missing constraint name
would raise `KeyError` in the source and cannot occur for schemas whose inputs
reference declared constraints, so it is rendered as the empty set. -/
def constraint_of (o : OpSchema) (type_str : String) : List String :=
  match o.typeConstraints.find? (fun p => decide (p.1 = type_str)) with
  | some p => p.2
  | none => []

/-- Truthiness of `allowed_types.intersection(compatible_types)`. -/
def has_intersection (allowed compat : List String) : Bool :=
  allowed.any (fun s => compat.contains s)

/-- Body of the input loop of `perfect_match_inputs`: the input fails exactly
when its compatible set misses the allowed set and the allowed set holds no
optional wildcard. -/
def input_type_mismatch (allowed : List String) (torch_input : Value) :
    Except DispatchError Bool :=
  match find_onnx_data_type torch_input with
  | .error e => .error e
  | .ok compat =>
    .ok (!(has_intersection allowed compat) && !(allowed.any is_optional_onnx_dtype_str))

/-- The `zip(self.op_schema.inputs, function_inputs)` loop of
`perfect_match_inputs`; every pair is inspected (the source records the
mismatch in a flag and keeps looping). -/
def any_input_mismatch (o : OpSchema) : List (String × Value) → Except DispatchError Bool
  | [] => .ok false
  | (ts, v) :: rest =>
    match input_type_mismatch (constraint_of o ts) v with
    | .error e => .error e
    | .ok b =>
      match any_input_mismatch o rest with
      | .error e => .error e
      | .ok r => .ok (b || r)

/-- `self.attributes[attribute_name].type` comparison inside
`_match_onnx_attribute_type`; an undeclared name would raise `KeyError` in the
source (unreachable: the loop runs after the attribute-name-set check), so it
is rendered as a mismatch. -/
def declared_attr_type_matches (o : OpSchema) (n : String) (t : Option AttrType) : Bool :=
  match o.attributes.find? (fun a => decide (a.name = n)) with
  | some a => decide (t = some a.attrType)
  | none => false

mutual

/-- `_match_onnx_attribute_type`: scalars must map to the declared kind, a
nonempty list recurses on its first element with `is_sequence` set, everything
else (empty list, `None`, tensors, complex, unknown) mismatches. -/
def match_onnx_attribute_type (o : OpSchema) (attribute_name : String) :
    Bool → Value → Bool
  | is_sequence, .vint =>
    declared_attr_type_matches o attribute_name
      (from_python_type_to_onnx_attribute_type .vint is_sequence)
  | is_sequence, .vfloat =>
    declared_attr_type_matches o attribute_name
      (from_python_type_to_onnx_attribute_type .vfloat is_sequence)
  | is_sequence, .vbool =>
    declared_attr_type_matches o attribute_name
      (from_python_type_to_onnx_attribute_type .vbool is_sequence)
  | is_sequence, .vstr =>
    declared_attr_type_matches o attribute_name
      (from_python_type_to_onnx_attribute_type .vstr is_sequence)
  | _, .vlist xs => match_onnx_attribute_type_seq o attribute_name xs
  | _, _ => false

/-- The `isinstance(attribute, (list, tuple)) and attribute` branch of
`_match_onnx_attribute_type`: a nonempty list is judged by its first element
with `is_sequence=True`; the empty list falls through to the mismatch
branch. -/
def match_onnx_attribute_type_seq (o : OpSchema) (attribute_name : String) :
    List Value → Bool
  | x :: _ => match_onnx_attribute_type o attribute_name true x
  | [] => false

end

/-- The input half of `_record_matching_score`: `score += 1` per zipped input
whose compatible set meets the allowed set. -/
def count_good_inputs (o : OpSchema) : List (String × Value) → Except DispatchError Int
  | [] => .ok 0
  | (ts, v) :: rest =>
    match find_onnx_data_type v with
    | .error e => .error e
    | .ok compat =>
      match count_good_inputs o rest with
      | .error e => .error e
      | .ok r => .ok ((if has_intersection (constraint_of o ts) compat then 1 else 0) + r)

/-- The attribute half of `_record_matching_score`: `score -= 1` per declared
attribute whose value's Python type does not map to the declared kind (the
source indexes `attributes[attribute_name]` after the name-set check has
passed; a missing name is rendered as `None`, which never maps). -/
def attr_score_penalty (o : OpSchema) (attributes : List (String × Value)) : Int :=
  o.attributes.foldl
    (fun acc a =>
      let attr_val := (lookup_kw attributes a.name).getD Value.vnone
      if !(decide (from_python_type_to_onnx_attribute_type attr_val false = some a.attrType)) then
        acc - 1
      else acc)
    0

/-- `_record_matching_score`: the value assigned to `self._matching_score`. -/
def record_matching_score (o : OpSchema) (inputs : List Value)
    (attributes : List (String × Value)) : Except DispatchError Int :=
  match count_good_inputs o (o.inputs.zip inputs) with
  | .error e => .error e
  | .ok g => .ok (g + attr_score_penalty o attributes)

/-- Python `set(xs) == set(ys)` on name lists. -/
def name_set_eq (xs ys : List String) : Bool :=
  xs.all (fun x => ys.contains x) && ys.all (fun y => xs.contains y)

/-- The count/name eligibility test of `perfect_match_inputs` (its step 1):
separated input count equals the schema's input count and the separated
attribute names equal the declared attribute names as sets. -/
def count_name_check (fs : FunctionSchema) (args : List Value)
    (kwargs : List (String × Value)) : Bool :=
  let r := separate_input_attributes_from_arguments fs.opSchema.attributes fs.params args kwargs true
  decide (r.1.length = fs.opSchema.inputs.length) &&
    name_set_eq (r.2.map (fun p => p.1)) (fs.opSchema.attributes.map (fun a => a.name))

/-- `perfect_match_inputs` together with the `_matching_score` it leaves
behind: the pair is `(return value, _matching_score)`. A count/name failure
returns early with no score; otherwise the input loop (which can raise through
`_find_onnx_data_type`), the attribute loop and `_record_matching_score` run,
and the score is always recorded. -/
def perfect_match_inputs (fs : FunctionSchema) (args : List Value)
    (kwargs : List (String × Value)) : Except DispatchError (Bool × Option Int) :=
  let r := separate_input_attributes_from_arguments fs.opSchema.attributes fs.params args kwargs true
  let function_inputs := r.1
  let function_attributes := r.2
  if !(decide (function_inputs.length = fs.opSchema.inputs.length) &&
        name_set_eq (function_attributes.map (fun p => p.1))
          (fs.opSchema.attributes.map (fun a => a.name))) then
    .ok (false, none)
  else
    match any_input_mismatch fs.opSchema (fs.opSchema.inputs.zip function_inputs) with
    | .error e => .error e
    | .ok input_mismatch =>
      let attrs_ok := function_attributes.all
        (fun kv => match_onnx_attribute_type fs.opSchema kv.1 false kv.2)
      match record_matching_score fs.opSchema function_inputs function_attributes with
      | .error e => .error e
      | .ok s => .ok (!input_mismatch && attrs_ok, some s)

/-- The `match_score` property read by the dispatcher after a non-perfect
probe: `None` when no score was recorded. -/
def match_score (fs : FunctionSchema) (args : List Value)
    (kwargs : List (String × Value)) : Option Int :=
  match perfect_match_inputs fs args kwargs with
  | .ok r => r.2
  | .error _ => none

/-- Strict comparison of Python key tuples `(score, is_custom, index)` with
`False < True`. -/
def keyLt : Int × Bool × Nat → Int × Bool × Nat → Bool
  | (s1, c1, i1), (s2, c2, i2) =>
    decide (s1 < s2) ||
      (decide (s1 = s2) &&
        ((!c1 && c2) || (decide (c1 = c2) && decide (i1 < i2))))

/-- `default_and_custom_functions.index(k)`: first position of `k`. -/
def list_index (all : List ONNXFunction) (f : ONNXFunction) : Nat :=
  all.findIdx (fun x => decide (x = f))

/-- The sort key of the tie-break `sorted(...)` call. -/
def rank_key (all : List ONNXFunction) (f : ONNXFunction) (s : Int) : Int × Bool × Nat :=
  (s, f.is_custom, list_index all f)

/-- Descending insertion step for the tie-break sort. -/
def insert_ranked (all : List ONNXFunction) (x : ONNXFunction × Int) :
    List (ONNXFunction × Int) → List (ONNXFunction × Int)
  | [] => [x]
  | y :: ys =>
    if keyLt (rank_key all y.1 y.2) (rank_key all x.1 x.2) then x :: y :: ys
    else y :: insert_ranked all x ys

/-- `sorted(overload_match_ranking, key=..., reverse=True)`: descending sort
by `(score, is_custom, index)`; distinct dict keys always have distinct first
positions, so tie order is immaterial. -/
def sort_ranked_desc (all : List ONNXFunction) (l : List (ONNXFunction × Int)) :
    List (ONNXFunction × Int) :=
  l.foldr (insert_ranked all) []

/-- `overload_match_ranking[symbolic_function] = ...` on the dict keyed by
`ONNXFunction` (dataclass equality). -/
def dict_insert_fn (m : List (ONNXFunction × Option Int)) (k : ONNXFunction)
    (v : Option Int) : List (ONNXFunction × Option Int) :=
  if m.any (fun p => decide (p.1 = k)) then
    m.map (fun p => if p.1 = k then (k, v) else p)
  else
    m ++ [(k, v)]

/-- Steps 2 and 3 of `_find_the_perfect_or_nearest_match_onnxfunction` once
the scan found no perfect match: drop `None` scores, fail when nothing
remains, else sort descending and return the top entry's function. -/
def nearest_match_selection (all : List ONNXFunction)
    (ranking : List (ONNXFunction × Option Int)) : Except DispatchError Nat :=
  match sort_ranked_desc all (ranking.filterMap (fun p => p.2.map (fun s => (p.1, s)))) with
  | [] => .error .noSymbolicFunction
  | top :: _ => .ok top.1.fn

/-- The `for symbolic_function in reversed(...)` scan of
`_find_the_perfect_or_nearest_match_onnxfunction`: return the first perfect
match, otherwise accumulate `match_score` into the ranking dict and fall
through to nearest-match selection. -/
def find_match_aux (all : List ONNXFunction) (args : List Value)
    (kwargs : List (String × Value)) :
    List ONNXFunction → List (ONNXFunction × Option Int) → Except DispatchError Nat
  | [], ranking => nearest_match_selection all ranking
  | f :: rest, ranking =>
    match perfect_match_inputs f.schema args kwargs with
    | .error e => .error e
    | .ok (is_perfect, score) =>
      if is_perfect then .ok f.fn
      else find_match_aux all args kwargs rest (dict_insert_fn ranking f score)

/-- `_find_the_perfect_or_nearest_match_onnxfunction`: the result is the
identifier of the chosen onnx function. -/
def find_the_perfect_or_nearest_match_onnxfunction (cands : List ONNXFunction)
    (args : List Value) (kwargs : List (String × Value)) : Except DispatchError Nat :=
  find_match_aux cands args kwargs cands.reverse []

/-- `_filter_or_keep_complex`: partition on whether any positional node
argument carries a complex dtype; an empty retained set raises. -/
def filter_or_keep_complex (node_args : List Value) (funcs : List ONNXFunction) :
    Except DispatchError (List ONNXFunction) :=
  if (node_args.map is_arg_with_complex_dtype).any (fun b => b) then
    let l := funcs.filter (fun f => f.is_complex)
    if l.isEmpty then .error (.noMatchingVariant true) else .ok l
  else
    let l := funcs.filter (fun f => !f.is_complex)
    if l.isEmpty then .error (.noMatchingVariant false) else .ok l

/-- Modelled from the spec: `_registration.OpName` is not under `src/`; per
its data model an operator identity is `{namespace, name, overload:
optional<string>}` with structural equality (`ns` and `op_name` name the first
two fields). -/
structure OpName where
  ns : String
  op_name : String
  overload : Option String
deriving DecidableEq

/-- `get_function_overloads`: exact registry lookup, then default-overload
fallback (the returned flag records whether the fallback warning was logged),
then the complex/real partition; both lookups missing raises. The registry is
the `dict.get` of `OnnxRegistry.get_op_functions`, modelled as a function. -/
def get_function_overloads (registry : OpName → Option (List ONNXFunction))
    (name : OpName) (node_args : List Value) :
    Except DispatchError (List ONNXFunction × Bool) :=
  match registry name with
  | some function_group =>
    match filter_or_keep_complex node_args function_group with
    | .error e => .error e
    | .ok l => .ok (l, false)
  | none =>
    match registry { name with overload := none } with
    | some function_group =>
      match filter_or_keep_complex node_args function_group with
      | .error e => .error e
      | .ok l => .ok (l, true)
    | none => .error .unregisteredOperator

/-- `OnnxFunctionDispatcher.dispatch` after operator-identity resolution:
overload lookup (with fallback and complex partition) followed by
perfect/nearest matching. -/
def dispatch (registry : OpName → Option (List ONNXFunction)) (name : OpName)
    (node_args : List Value) (onnx_args : List Value)
    (onnx_kwargs : List (String × Value)) : Except DispatchError Nat :=
  match get_function_overloads registry name node_args with
  | .error e => .error e
  | .ok (g, _) => find_the_perfect_or_nearest_match_onnxfunction g onnx_args onnx_kwargs

/-- Specification-side matching score (refinement target for the scoring
claim): the number of declared inputs whose compatible wire-type set meets the
declared constraint's allowed set, minus the number of declared attributes
whose runtime value type does not map to the declared attribute kind. -/
def spec_matching_score (fs : FunctionSchema) (args : List Value)
    (kwargs : List (String × Value)) : Int :=
  let r := separate_input_attributes_from_arguments fs.opSchema.attributes fs.params args kwargs true
  ((fs.opSchema.inputs.zip r.1).countP
      (fun p =>
        match find_onnx_data_type p.2 with
        | .ok compat => has_intersection (constraint_of fs.opSchema p.1) compat
        | .error _ => false) : Int) -
    (fs.opSchema.attributes.countP
      (fun a =>
        !(decide (from_python_type_to_onnx_attribute_type
            ((lookup_kw r.2 a.name).getD Value.vnone) false = some a.attrType))) : Int)

/-- Specification-side key of one candidate for nearest-match selection:
`(score, is_custom, position in the candidate list)`. -/
def cand_key (cands : List ONNXFunction) (args : List Value)
    (kwargs : List (String × Value)) (f : ONNXFunction) : Int × Bool × Nat :=
  ((match_score f.schema args kwargs).getD 0, f.is_custom, list_index cands f)

/-- Specification-side selection (refinement target for the tie-break claim):
among schema-eligible candidates, the maximal one under the lexicographic key
`(score, is_custom, position)`, earliest-kept on (impossible) exact key
ties. -/
def spec_nearest_selection (cands : List ONNXFunction) (args : List Value)
    (kwargs : List (String × Value)) : Option ONNXFunction :=
  (cands.filter (fun f => (match_score f.schema args kwargs).isSome)).foldl
    (fun best f =>
      match best with
      | none => some f
      | some b =>
        if keyLt (cand_key cands args kwargs b) (cand_key cands args kwargs f) then some f
        else some b)
    none

/-! ## Concrete example schemas and candidates used by the witnesses -/

/-- Example op schema: one input constrained to `tensor(float)`, no
attributes. -/
def exOpSchema : OpSchema := ⟨["T"], [], [("T", ["tensor(float)"])]⟩

/-- Example input parameter `x`. -/
def exParamX : ParamSchema := ⟨"x", true, false, true, Value.vnone⟩

/-- Example function schema: one float input, no attributes. -/
def exSchema : FunctionSchema := ⟨[exParamX], exOpSchema⟩

/-- Example built-in candidate over `exSchema`. -/
def exBuiltin : ONNXFunction := ⟨0, false, false, exSchema⟩

/-- Example custom candidate over `exSchema`. -/
def exCustom : ONNXFunction := ⟨1, true, false, exSchema⟩

/-- Example complex-capable candidate over `exSchema`. -/
def exComplex : ONNXFunction := ⟨2, false, true, exSchema⟩

/-- Example registry: only the default overload of `aten::add` is present. -/
def exRegistry : OpName → Option (List ONNXFunction) :=
  fun n => if n = ⟨"aten", "add", none⟩ then some [exBuiltin] else none

/-- Example float32 tensor argument. -/
def exTensorF : Value := Value.tensor (some .float32)

/-- Example int64 tensor argument. -/
def exTensorI : Value := Value.tensor (some .int64)

/-- Example complex64 tensor argument. -/
def exTensorC : Value := Value.tensor (some .complex64)

/-- Example declared attribute `a` of kind INT with a default. -/
def exAttrA : SchemaAttribute := ⟨"a", .INT, true⟩

/-- Example attribute parameter `a` defaulting to an int. -/
def exParamA : ParamSchema := ⟨"a", false, false, false, Value.vint⟩

/-- Example function schema with one float input and one INT attribute. -/
def exSchemaAttr : FunctionSchema := ⟨[exParamX, exParamA], ⟨["T"], [exAttrA], [("T", ["tensor(float)"])]⟩⟩

/-- Example candidate over `exSchemaAttr`. -/
def exWithAttr : ONNXFunction := ⟨3, false, false, exSchemaAttr⟩

/-! ## General lemmas about the embedded definitions -/

/-- The `onnx_inputs` accumulator of the separation loop only ever grows by
appending: the final input list is the accumulator followed by the
contribution of the remaining parameters. -/
theorem separate_loop_inputs_append (sa : List SchemaAttribute) (fill : Bool)
    (ps : List ParamSchema) :
    ∀ (i : Nat) (args inputs : List Value) (attrs ck : List (String × Value)),
      (separate_loop sa fill ps i args inputs attrs ck).1 =
        inputs ++ (separate_loop sa fill ps i args [] attrs ck).1 := by
  induction ps with
  | nil => intro i args inputs attrs ck; simp [separate_loop]
  | cons p ps ih =>
    intro i args inputs attrs ck
    simp only [separate_loop]
    split
    · conv_lhs => rw [ih]
      try conv_rhs => rw [ih]
      try simp
    · split
      · split
        · conv_lhs => rw [ih]
          try conv_rhs => rw [ih]
          try simp
        · conv_lhs => rw [ih]
          try conv_rhs => rw [ih]
          try simp
      · split
        · split
          · conv_lhs => rw [ih]
            try conv_rhs => rw [ih]
            try simp
          · conv_lhs => rw [ih]
            try conv_rhs => rw [ih]
            try simp
        · split
          · conv_lhs => rw [ih]
            try conv_rhs => rw [ih]
            try simp
          · split
            · cases fill
              · conv_lhs => rw [ih]
                try conv_rhs => rw [ih]
                try simp
              · conv_lhs => rw [ih]
                try conv_rhs => rw [ih]
                try simp
            · conv_lhs => rw [ih]
              try conv_rhs => rw [ih]
              try simp

/-! ## Claim C9: totality shape of the type-compatibility function -/

/-- Claim C9: the type-compatibility function `_find_onnx_data_type` is total
over the recognized value shapes and its three information-missing cases
(empty sequence, absent value, tensor-like value with unknown dtype) yield the
universal-wildcard empty constraint set instead of failing, while a value of
none of the recognized shapes raises the hard unknown-input-type error. -/
theorem claim_C9 :
    (∀ d : TorchDtype,
      find_onnx_data_type (Value.tensor (some d)) =
        .ok (from_torch_dtype_to_onnx_dtype_str d)) ∧
    find_onnx_data_type Value.vint = .ok ["tensor(int16)", "tensor(int32)", "tensor(int64)"] ∧
    find_onnx_data_type Value.vfloat = .ok ["tensor(float16)", "tensor(float)", "tensor(double)"] ∧
    find_onnx_data_type Value.vbool = .ok ["tensor(int32)", "tensor(int64)", "tensor(bool)"] ∧
    find_onnx_data_type Value.vstr = .ok ["tensor(string)"] ∧
    find_onnx_data_type Value.vcomplex = .ok ["tensor(float)", "tensor(double)"] ∧
    find_onnx_data_type (Value.vlist []) = .ok [] ∧
    find_onnx_data_type Value.vnone = .ok [] ∧
    find_onnx_data_type (Value.tensor none) = .ok [] ∧
    find_onnx_data_type Value.vunknown = .error .unknownInputType := by
  refine ⟨fun d => rfl, ?_, ?_, ?_, ?_, ?_, ?_, ?_, ?_, ?_⟩ <;> rfl

/-! ## Claim C6: missing required parameters do not fail -/

/-- Claim C6 (code behavior at the failing input): the source of
`_separate_input_attributes_from_arguments` raises no error when a required
parameter is satisfied by no positional argument, no keyword argument and no
default. A required input (first conjunct) is silently filled with `None`; a
required attribute without declared default (second conjunct) is silently
dropped. Both contradict the routine's own docstring, which promises a
`TypeError` when a required input is not provided. -/
theorem claim_C6_code_behavior :
    separate_input_attributes_from_arguments []
        [⟨"x", true, false, true, Value.vnone⟩] [] [] true = ([Value.vnone], []) ∧
    separate_input_attributes_from_arguments [⟨"a", .INT, false⟩]
        [⟨"a", false, false, true, Value.vnone⟩] [] [] true = ([], []) := by
  exact ⟨rfl, rfl⟩

/-! ## Claim C7: omitted optional inputs -/

/-- Claim C7: when the walk of `_separate_input_attributes_from_arguments`
(with `fill_defaults` set) reaches an input parameter whose position is past
the positional arguments and whose name is absent from the remaining keyword
arguments, the slot is filled with the explicit absent value `None`; and the
per-input type test of `perfect_match_inputs` never fails on such a `None`
when the input's allowed type set contains an optional wildcard (the encoding
of a declared optional input), so the filled absence does not by itself
destroy a perfect match. -/
theorem claim_C7 (sa : List SchemaAttribute) (p : ParamSchema) (ps : List ParamSchema)
    (i : Nat) (args inputs : List Value) (attrs ck : List (String × Value))
    (allowed : List String)
    (hin : p.is_input = true) (hvar : p.is_variadic_input = false)
    (hpos : args.length ≤ i) (hkw : lookup_kw ck p.name = none)
    (hopt : allowed.any is_optional_onnx_dtype_str = true) :
    (separate_loop sa true (p :: ps) i args inputs attrs ck).1 =
      inputs ++ Value.vnone :: (separate_loop sa true ps (i + 1) args [] attrs ck).1 ∧
    input_type_mismatch allowed Value.vnone = .ok false := by
  constructor
  · have hstep : separate_loop sa true (p :: ps) i args inputs attrs ck =
        separate_loop sa true ps (i + 1) args (inputs ++ [Value.vnone]) attrs ck := by
      simp only [separate_loop, hvar, hin, hkw]
      simp [Nat.not_lt.mpr hpos]
    rw [hstep, separate_loop_inputs_append]
    simp
  · simp only [input_type_mismatch, find_onnx_data_type, has_intersection, hopt]
    simp

/-- Claim C7 witness: a single optional input (allowed set
`[optional(tensor(int64))]`) omitted from an empty call is filled with `None`
and passes the per-input test. -/
theorem claim_C7_witness :
    (separate_loop [] true [⟨"x", true, false, false, Value.vnone⟩] 0 [] [] [] []).1 =
      [] ++ Value.vnone :: (separate_loop [] true [] 1 [] [] [] []).1 ∧
    input_type_mismatch ["optional(tensor(int64))"] Value.vnone = .ok false :=
  claim_C7 [] ⟨"x", true, false, false, Value.vnone⟩ [] 0 [] [] [] []
    ["optional(tensor(int64))"] rfl rfl (by decide) rfl (by decide)

/-! ## Claim C4: default-overload fallback -/

/-- Claim C4: when the exact registry lookup misses, `get_function_overloads`
retries with the overload component absent; a successful fallback emits the
warning diagnostic (the boolean flag) and hands the fallback candidates to the
complex/real partition and then to normal matching, and only when the fallback
also misses does dispatch fail with the unregistered-operator error. -/
theorem claim_C4 (registry : OpName → Option (List ONNXFunction)) (name : OpName)
    (node_args : List Value) (h : registry name = none) :
    (∀ function_group retained,
      registry { name with overload := none } = some function_group →
      filter_or_keep_complex node_args function_group = .ok retained →
      get_function_overloads registry name node_args = .ok (retained, true) ∧
      ∀ onnx_args onnx_kwargs,
        dispatch registry name node_args onnx_args onnx_kwargs =
          find_the_perfect_or_nearest_match_onnxfunction retained onnx_args onnx_kwargs) ∧
    (registry { name with overload := none } = none →
      get_function_overloads registry name node_args = .error .unregisteredOperator) := by
  constructor
  · intro function_group retained hg hf
    have hget : get_function_overloads registry name node_args = .ok (retained, true) := by
      simp only [get_function_overloads, h, hg, hf]
    refine ⟨hget, ?_⟩
    intro onnx_args onnx_kwargs
    simp only [dispatch, hget]
  · intro hg
    simp only [get_function_overloads, h, hg]

/-- Claim C4 witness: a registry holding only the default overload of
`aten::add` answers a lookup for `aten::add.Tensor_mode` through the fallback,
with the warning flag set. -/
theorem claim_C4_witness :
    get_function_overloads exRegistry ⟨"aten", "add", some "Tensor_mode"⟩ [] =
      .ok ([exBuiltin], true) :=
  ((claim_C4 exRegistry ⟨"aten", "add", some "Tensor_mode"⟩ [] (by decide)).1
    [exBuiltin] [exBuiltin] (by decide) (by decide)).1

/-- Membership in an insertion step of the tie-break sort. -/
theorem insert_ranked_mem (all : List ONNXFunction) (x y : ONNXFunction × Int) :
    ∀ l : List (ONNXFunction × Int), y ∈ insert_ranked all x l → y = x ∨ y ∈ l := by
  intro l
  induction l with
  | nil =>
    intro h
    simp only [insert_ranked, List.mem_singleton] at h
    exact Or.inl h
  | cons z zs ih =>
    intro h
    simp only [insert_ranked] at h
    by_cases hk : keyLt (rank_key all z.1 z.2) (rank_key all x.1 x.2) = true
    · rw [if_pos hk] at h
      rcases List.mem_cons.mp h with h1 | h1
      · exact Or.inl h1
      · exact Or.inr h1
    · rw [if_neg hk] at h
      rcases List.mem_cons.mp h with h1 | h1
      · exact Or.inr (by simp [h1])
      · rcases ih h1 with h2 | h2
        · exact Or.inl h2
        · exact Or.inr (List.mem_cons_of_mem z h2)

/-- Membership is preserved by the tie-break sort. -/
theorem sort_ranked_desc_mem (all : List ONNXFunction) (y : ONNXFunction × Int) :
    ∀ l : List (ONNXFunction × Int), y ∈ sort_ranked_desc all l → y ∈ l := by
  intro l
  induction l with
  | nil => intro h; simpa [sort_ranked_desc] using h
  | cons z zs ih =>
    intro h
    simp only [sort_ranked_desc, List.foldr] at h
    rcases insert_ranked_mem all z y _ h with h1 | h1
    · simp [h1]
    · exact List.mem_cons_of_mem z (ih h1)

/-- Inserting into the ranking dict only introduces the inserted key. -/
theorem dict_insert_fn_mem (m : List (ONNXFunction × Option Int)) (k : ONNXFunction)
    (v : Option Int) (p : ONNXFunction × Option Int) (hp : p ∈ dict_insert_fn m k v) :
    p ∈ m ∨ p.1 = k := by
  simp only [dict_insert_fn] at hp
  split at hp
  · rcases List.mem_map.mp hp with ⟨q, hq, hmap⟩
    by_cases hqk : q.1 = k
    · right; rw [← hmap]; simp [hqk]
    · left; rw [← hmap]; simpa [hqk] using hq
  · rcases List.mem_append.mp hp with h1 | h1
    · exact Or.inl h1
    · right; simp at h1; simp [h1]

/-- Any function returned by the scan/selection loop comes from the scanned
list or from the accumulated ranking dict. -/
theorem find_match_aux_mem (all : List ONNXFunction) (args : List Value)
    (kwargs : List (String × Value)) :
    ∀ (l : List ONNXFunction) (ranking : List (ONNXFunction × Option Int)) (n : Nat),
      find_match_aux all args kwargs l ranking = .ok n →
      (∃ f ∈ l, f.fn = n) ∨ (∃ p ∈ ranking, p.1.fn = n) := by
  intro l
  induction l with
  | nil =>
    intro ranking n h
    simp only [find_match_aux, nearest_match_selection] at h
    rcases hs : sort_ranked_desc all
        (ranking.filterMap (fun p => p.2.map (fun s => (p.1, s)))) with _ | ⟨top, rest2⟩
    · rw [hs] at h; exact Except.noConfusion h
    · rw [hs] at h
      simp only [Except.ok.injEq] at h
      right
      have htop : top ∈ sort_ranked_desc all
          (ranking.filterMap (fun p => p.2.map (fun s => (p.1, s)))) := by
        rw [hs]; exact List.mem_cons_self top rest2
      have htop2 := sort_ranked_desc_mem all top _ htop
      rcases List.mem_filterMap.mp htop2 with ⟨q, hq, hmap⟩
      refine ⟨q, hq, ?_⟩
      cases hq2 : q.2 with
      | none => rw [hq2] at hmap; simp at hmap
      | some s =>
        rw [hq2] at hmap
        have hpair : (q.1, s) = top := Option.some.inj hmap
        have hq1 : q.1 = top.1 := congrArg Prod.fst hpair
        rw [hq1, h]
  | cons f rest ih =>
    intro ranking n h
    cases hr : perfect_match_inputs f.schema args kwargs with
    | error e =>
      simp only [find_match_aux, hr] at h
      exact Except.noConfusion h
    | ok r =>
      rcases r with ⟨is_perfect, score⟩
      simp only [find_match_aux, hr] at h
      cases is_perfect with
      | true =>
        simp only [if_true] at h
        simp only [Except.ok.injEq] at h
        exact Or.inl ⟨f, by simp, h⟩
      | false =>
        simp only [Bool.false_eq_true, if_false] at h
        rcases ih (dict_insert_fn ranking f score) n h with h1 | h1
        · rcases h1 with ⟨g, hg, hgn⟩
          exact Or.inl ⟨g, by simp [hg], hgn⟩
        · rcases h1 with ⟨p, hp, hpn⟩
          rcases dict_insert_fn_mem ranking f score p hp with h2 | h2
          · exact Or.inr ⟨p, h2, hpn⟩
          · exact Or.inl ⟨f, by simp, by rw [← h2]; exact hpn⟩

/-- Any function returned by
`_find_the_perfect_or_nearest_match_onnxfunction` is one of the candidates. -/
theorem find_match_result_mem (cands : List ONNXFunction) (args : List Value)
    (kwargs : List (String × Value)) (n : Nat)
    (h : find_the_perfect_or_nearest_match_onnxfunction cands args kwargs = .ok n) :
    ∃ f ∈ cands, f.fn = n := by
  rcases find_match_aux_mem cands args kwargs cands.reverse [] n h with h1 | h1
  · rcases h1 with ⟨f, hf, hfn⟩
    exact ⟨f, List.mem_reverse.mp hf, hfn⟩
  · simp at h1

/-! ## Claim C3: complex/real partition -/

/-- Claim C3: when some positional node argument is complex-valued (a list
counting as complex exactly when its first element is, per
`_is_arg_with_complex_dtype`), the retained candidates all have
`is_complex = true`, and any implementation subsequently selected from them
belongs to a complex candidate; symmetrically for the real case; and an empty
retained set makes the partition fail with the typed no-matching-variant error
instead of returning candidates. -/
theorem claim_C3 (g : List ONNXFunction) (node_args : List Value) :
    ((node_args.map is_arg_with_complex_dtype).any (fun b => b) = true →
      (∀ l, filter_or_keep_complex node_args g = .ok l →
        (∀ f ∈ l, f.is_complex = true) ∧
        ∀ (onnx_args : List Value) (onnx_kwargs : List (String × Value)) (n : Nat),
          find_the_perfect_or_nearest_match_onnxfunction l onnx_args onnx_kwargs = .ok n →
          ∃ f ∈ g, f.is_complex = true ∧ f.fn = n) ∧
      (g.filter (fun f => f.is_complex) = [] →
        filter_or_keep_complex node_args g = .error (.noMatchingVariant true))) ∧
    ((node_args.map is_arg_with_complex_dtype).any (fun b => b) = false →
      (∀ l, filter_or_keep_complex node_args g = .ok l →
        ∀ f ∈ l, f.is_complex = false) ∧
      (g.filter (fun f => !f.is_complex) = [] →
        filter_or_keep_complex node_args g = .error (.noMatchingVariant false))) := by
  constructor
  · intro hc
    constructor
    · intro l hl
      have hfil : l = g.filter (fun f => f.is_complex) := by
        simp only [filter_or_keep_complex, hc, if_true] at hl
        split at hl
        · exact Except.noConfusion hl
        · exact (Except.ok.inj hl).symm
      constructor
      · intro f hf
        rw [hfil] at hf
        exact (List.mem_filter.mp hf).2
      · intro onnx_args onnx_kwargs n hn
        rcases find_match_result_mem l onnx_args onnx_kwargs n hn with ⟨f, hf, hfn⟩
        rw [hfil] at hf
        exact ⟨f, (List.mem_filter.mp hf).1, (List.mem_filter.mp hf).2, hfn⟩
    · intro hempty
      simp only [filter_or_keep_complex, hc, if_true, hempty]
      simp
  · intro hc
    constructor
    · intro l hl f hf
      have hfil : l = g.filter (fun f => !f.is_complex) := by
        simp only [filter_or_keep_complex, hc, Bool.false_eq_true, if_false] at hl
        split at hl
        · exact Except.noConfusion hl
        · exact (Except.ok.inj hl).symm
      rw [hfil] at hf
      have := (List.mem_filter.mp hf).2
      simpa using this
    · intro hempty
      simp only [filter_or_keep_complex, hc, Bool.false_eq_true, if_false, hempty]
      simp

/-- Claim C3 witness: with a complex tensor argument and candidates
`[exBuiltin, exComplex]`, the partition retains exactly `exComplex`; with only
the real `exBuiltin` registered, it fails with the complex-wanted
no-matching-variant error. -/
theorem claim_C3_witness :
    filter_or_keep_complex [Value.tensor (some .complex64)] [exBuiltin] =
      .error (.noMatchingVariant true) :=
  ((claim_C3 [exBuiltin] [Value.tensor (some .complex64)]).1 (by decide)).2 (by decide)

/-- Scanning a list that opens with non-perfect candidates and then a perfect
one returns the perfect one's function, whatever follows it and whatever is
already in the ranking dict. -/
theorem find_match_aux_first_perfect (all : List ONNXFunction) (args : List Value)
    (kwargs : List (String × Value)) (f : ONNXFunction) (post : List ONNXFunction)
    (hf : ∃ s, perfect_match_inputs f.schema args kwargs = .ok (true, s)) :
    ∀ (pre : List ONNXFunction) (ranking : List (ONNXFunction × Option Int)),
      (∀ g ∈ pre, ∃ s, perfect_match_inputs g.schema args kwargs = .ok (false, s)) →
      find_match_aux all args kwargs (pre ++ f :: post) ranking = .ok f.fn := by
  intro pre
  induction pre with
  | nil =>
    intro ranking _
    rcases hf with ⟨s, hfs⟩
    simp [find_match_aux, hfs]
  | cons g pre ih =>
    intro ranking hpre
    rcases hpre g (by simp) with ⟨s, hgs⟩
    simp only [List.cons_append, find_match_aux, hgs, Bool.false_eq_true, if_false]
    exact ih (dict_insert_fn ranking g s) (fun g2 hg2 => hpre g2 (by simp [hg2]))

/-! ## Claim C2: first perfect match in reverse registration order wins -/

/-- Claim C2: if the reverse-registration-order scan reaches a candidate whose
perfect-match test succeeds (all candidates scanned before it — i.e. all
registered after it — failing theirs), the dispatcher returns that candidate's
implementation immediately; the candidates after it in scan order and all
scoring are irrelevant (nothing is assumed about them). In particular, when
several candidates perfect-match, the most recently registered one wins. -/
theorem claim_C2 (cands : List ONNXFunction) (args : List Value)
    (kwargs : List (String × Value)) (pre post : List ONNXFunction) (f : ONNXFunction)
    (hsplit : cands.reverse = pre ++ f :: post)
    (hpre : ∀ g ∈ pre, perfect_match_inputs g.schema args kwargs =
        .ok (false, match_score g.schema args kwargs))
    (hf : perfect_match_inputs f.schema args kwargs =
        .ok (true, match_score f.schema args kwargs)) :
    find_the_perfect_or_nearest_match_onnxfunction cands args kwargs = .ok f.fn := by
  rw [find_the_perfect_or_nearest_match_onnxfunction, hsplit]
  exact find_match_aux_first_perfect cands args kwargs f post
    ⟨match_score f.schema args kwargs, hf⟩ pre []
    (fun g hg => ⟨match_score g.schema args kwargs, hpre g hg⟩)

/-- Claim C2 witness: both the earlier-registered `exBuiltin` (function 0) and
the later-registered `exCustom` (function 1) perfect-match a float call; the
scan sees `exCustom` first and returns function 1. -/
theorem claim_C2_witness :
    find_the_perfect_or_nearest_match_onnxfunction [exBuiltin, exCustom]
      [Value.tensor (some .float32)] [] = .ok 1 :=
  claim_C2 [exBuiltin, exCustom] [Value.tensor (some .float32)] [] [] [exBuiltin]
    exCustom (by decide) (by intro g hg; exact absurd hg (List.not_mem_nil g))
    (by decide)

/-- The input half of the recorded score counts the zipped inputs whose
compatible set meets their constraint. -/
theorem count_good_inputs_eq (o : OpSchema) :
    ∀ (pairs : List (String × Value)) (g : Int),
      count_good_inputs o pairs = .ok g →
      g = (pairs.countP (fun p =>
            match find_onnx_data_type p.2 with
            | .ok compat => has_intersection (constraint_of o p.1) compat
            | .error _ => false) : Int) := by
  intro pairs
  induction pairs with
  | nil =>
    intro g h
    simp only [count_good_inputs] at h
    simp [← Except.ok.inj h]
  | cons p rest ih =>
    intro g h
    rcases p with ⟨ts, v⟩
    cases hv : find_onnx_data_type v with
    | error e =>
      simp only [count_good_inputs, hv] at h
      exact Except.noConfusion h
    | ok compat =>
      cases hrest : count_good_inputs o rest with
      | error e =>
        simp only [count_good_inputs, hv, hrest] at h
        exact Except.noConfusion h
      | ok r =>
        simp only [count_good_inputs, hv, hrest] at h
        have hr := ih r hrest
        rw [List.countP_cons]
        simp only [hv]
        by_cases hi : has_intersection (constraint_of o ts) compat = true
        · simp only [hi, if_pos] at h
          rw [← Except.ok.inj h, hr]
          simp [hi]
          omega
        · simp only [hi, if_neg] at h
          rw [← Except.ok.inj h, hr]
          simp only [Bool.not_eq_true] at hi
          simp [hi]

/-- The attribute half of the recorded score subtracts one per declared
attribute whose value type fails to map to the declared kind. -/
theorem attr_penalty_foldl (attributes : List (String × Value)) :
    ∀ (l : List SchemaAttribute) (acc : Int),
      l.foldl (fun acc a =>
        if !(decide (from_python_type_to_onnx_attribute_type
            ((lookup_kw attributes a.name).getD Value.vnone) false = some a.attrType)) then
          acc - 1 else acc) acc =
      acc - (l.countP (fun a =>
        !(decide (from_python_type_to_onnx_attribute_type
            ((lookup_kw attributes a.name).getD Value.vnone) false = some a.attrType))) : Int) := by
  intro l
  induction l with
  | nil => intro acc; simp
  | cons a l ih =>
    intro acc
    rw [List.foldl_cons, List.countP_cons]
    by_cases hb : (!(decide (from_python_type_to_onnx_attribute_type
        ((lookup_kw attributes a.name).getD Value.vnone) false = some a.attrType))) = true
    · rw [ih]
      simp only [hb, if_pos]
      push_cast
      omega
    · rw [ih]
      simp only [hb, if_neg]
      simp only [Bool.not_eq_true] at hb
      simp [hb]

/-- `attr_score_penalty` as a closed count. -/
theorem attr_score_penalty_eq (o : OpSchema) (attributes : List (String × Value)) :
    attr_score_penalty o attributes =
      -(o.attributes.countP (fun a =>
        !(decide (from_python_type_to_onnx_attribute_type
            ((lookup_kw attributes a.name).getD Value.vnone) false = some a.attrType))) : Int) := by
  simp only [attr_score_penalty]
  rw [attr_penalty_foldl attributes o.attributes 0]
  omega

/-- A candidate that fails the count/name check returns not-perfect with no
recorded score, before any type inspection can raise. -/
theorem count_name_check_false_pm (fs : FunctionSchema) (args : List Value)
    (kwargs : List (String × Value)) (h : count_name_check fs args kwargs = false) :
    perfect_match_inputs fs args kwargs = .ok (false, none) := by
  simp only [count_name_check] at h
  simp only [perfect_match_inputs, h]
  simp

/-- The score recorded by `perfect_match_inputs` is exactly the specification
formula when the count/name check passes, and absent when it fails. -/
theorem perfect_match_score_characterization (fs : FunctionSchema) (args : List Value)
    (kwargs : List (String × Value)) (b : Bool) (s : Option Int)
    (hok : perfect_match_inputs fs args kwargs = .ok (b, s)) :
    (count_name_check fs args kwargs = true → s = some (spec_matching_score fs args kwargs)) ∧
    (count_name_check fs args kwargs = false → s = none) := by
  cases hc : count_name_check fs args kwargs with
  | false =>
    refine ⟨fun h => Bool.noConfusion h, fun _ => ?_⟩
    have := count_name_check_false_pm fs args kwargs hc
    rw [this] at hok
    exact (Prod.mk.injEq _ _ _ _ ▸ Except.ok.inj hok).2.symm
  | true =>
    refine ⟨fun _ => ?_, fun h => Bool.noConfusion h⟩
    simp only [count_name_check] at hc
    simp only [perfect_match_inputs, hc] at hok
    simp only [Bool.not_true, Bool.false_eq_true, if_false] at hok
    cases him : any_input_mismatch fs.opSchema
        (fs.opSchema.inputs.zip
          (separate_input_attributes_from_arguments fs.opSchema.attributes fs.params args
            kwargs true).1) with
    | error e =>
      rw [him] at hok
      exact Except.noConfusion hok
    | ok im =>
      rw [him] at hok
      cases hrs : record_matching_score fs.opSchema
          (separate_input_attributes_from_arguments fs.opSchema.attributes fs.params args
            kwargs true).1
          (separate_input_attributes_from_arguments fs.opSchema.attributes fs.params args
            kwargs true).2 with
      | error e =>
        rw [hrs] at hok
        exact Except.noConfusion hok
      | ok sc =>
        rw [hrs] at hok
        have hs : s = some sc := (Prod.mk.injEq _ _ _ _ ▸ Except.ok.inj hok).2.symm
        rw [hs]
        simp only [record_matching_score] at hrs
        cases hcg : count_good_inputs fs.opSchema
            (fs.opSchema.inputs.zip
              (separate_input_attributes_from_arguments fs.opSchema.attributes fs.params args
                kwargs true).1) with
        | error e =>
          rw [hcg] at hrs
          exact Except.noConfusion hrs
        | ok g =>
          rw [hcg] at hrs
          have hsc : sc = g + attr_score_penalty fs.opSchema
              (separate_input_attributes_from_arguments fs.opSchema.attributes fs.params args
                kwargs true).2 := (Except.ok.inj hrs).symm
          rw [hsc, count_good_inputs_eq fs.opSchema _ g hcg, attr_score_penalty_eq]
          simp only [spec_matching_score]
          simp [Int.sub_eq_add_neg]

/-- Values stay `none` across a ranking-dict insertion of `none`. -/
theorem dict_insert_fn_none_values (ranking : List (ONNXFunction × Option Int))
    (k : ONNXFunction) (hall : ∀ p ∈ ranking, p.2 = none) :
    ∀ p ∈ dict_insert_fn ranking k none, p.2 = none := by
  intro p hp
  simp only [dict_insert_fn] at hp
  split at hp
  · rcases List.mem_map.mp hp with ⟨q, hq, hmap⟩
    by_cases hqk : q.1 = k
    · rw [← hmap]; simp [hqk]
    · rw [← hmap]; simp only [hqk, if_neg, if_false]; exact hall q hq
  · rcases List.mem_append.mp hp with h1 | h1
    · exact hall p h1
    · simp at h1; simp [h1]

/-- If every scanned candidate reports not-perfect with no score and the
ranking dict holds only scoreless entries, the scan ends in the
no-symbolic-function error. -/
theorem find_match_aux_all_scoreless (all : List ONNXFunction) (args : List Value)
    (kwargs : List (String × Value)) :
    ∀ (l : List ONNXFunction) (ranking : List (ONNXFunction × Option Int)),
      (∀ g ∈ l, perfect_match_inputs g.schema args kwargs = .ok (false, none)) →
      (∀ p ∈ ranking, p.2 = none) →
      find_match_aux all args kwargs l ranking = .error .noSymbolicFunction := by
  intro l
  induction l with
  | nil =>
    intro ranking _ hrank
    have hfil : ranking.filterMap (fun p => p.2.map (fun s => (p.1, s))) = [] := by
      rw [List.filterMap_eq_nil]
      intro p hp
      rw [hrank p hp]
      rfl
    simp [find_match_aux, nearest_match_selection, hfil, sort_ranked_desc]
  | cons g rest ih =>
    intro ranking hl hrank
    have hg := hl g (by simp)
    simp only [find_match_aux, hg, Bool.false_eq_true, if_false]
    exact ih (dict_insert_fn ranking g none)
      (fun g2 hg2 => hl g2 (by simp [hg2]))
      (dict_insert_fn_none_values ranking g hrank)

/-! ## Claim C5: the matching score and schema eligibility -/

/-- Claim C5: for a candidate passing the count/name check the recorded score
is the number of declared inputs whose compatible wire-type set meets the
constraint's allowed set minus the number of declared attributes whose value
type does not map to the declared kind (`spec_matching_score`); a candidate
failing the count/name check records no score at all; and when every retained
candidate fails the count/name check the dispatcher raises the typed
no-symbolic-function error. -/
theorem claim_C5 :
    (∀ (fs : FunctionSchema) (args : List Value) (kwargs : List (String × Value))
        (b : Bool) (s : Option Int),
      perfect_match_inputs fs args kwargs = .ok (b, s) →
      (count_name_check fs args kwargs = true →
        s = some (spec_matching_score fs args kwargs)) ∧
      (count_name_check fs args kwargs = false → s = none)) ∧
    (∀ (cands : List ONNXFunction) (args : List Value) (kwargs : List (String × Value)),
      (∀ g ∈ cands, count_name_check g.schema args kwargs = false) →
      find_the_perfect_or_nearest_match_onnxfunction cands args kwargs =
        .error .noSymbolicFunction) := by
  constructor
  · exact perfect_match_score_characterization
  · intro cands args kwargs hall
    rw [find_the_perfect_or_nearest_match_onnxfunction]
    refine find_match_aux_all_scoreless cands args kwargs cands.reverse [] ?_ (by simp)
    intro g hg
    exact count_name_check_false_pm g.schema args kwargs
      (hall g (List.mem_reverse.mp hg))

/-- Claim C5 witness: an int tensor against a float-constrained input scores
`1 - 1 = 0` inputs/attributes-wise (here: one input with empty intersection,
no attributes, score `0`) and matches the specification formula; a call whose
stray non-null keyword breaks the attribute-name-set check makes the only
candidate scoreless and dispatch fails with the no-symbolic-function error. -/
theorem claim_C5_witness :
    (some (0 : Int) = some (spec_matching_score exSchema [exTensorI] [])) ∧
    find_the_perfect_or_nearest_match_onnxfunction [exBuiltin] [exTensorI]
      [("b", Value.vint)] = .error .noSymbolicFunction :=
  ⟨(claim_C5.1 exSchema [exTensorI] [] false (some 0) (by decide)).1 (by decide),
    claim_C5.2 [exBuiltin] [exTensorI] [("b", Value.vint)] (by decide)⟩

/-- Lookup at a matching head entry. -/
theorem lookup_kw_cons_eq (e : String × Value) (m : List (String × Value)) (n : String)
    (h : e.1 = n) : lookup_kw (e :: m) n = some e.2 := by
  simp [lookup_kw, List.find?_cons, h]

/-- Lookup past a non-matching head entry. -/
theorem lookup_kw_cons_ne (e : String × Value) (m : List (String × Value)) (n : String)
    (h : e.1 ≠ n) : lookup_kw (e :: m) n = lookup_kw m n := by
  simp [lookup_kw, List.find?_cons, h]

/-- Absence of a key is exactly key-freeness of the entries. -/
theorem lookup_kw_eq_none_iff (m : List (String × Value)) (k : String) :
    lookup_kw m k = none ↔ ∀ e ∈ m, e.1 ≠ k := by
  constructor
  · intro h e he hek
    induction m with
    | nil => simp at he
    | cons e2 m ih =>
      by_cases he2 : e2.1 = k
      · rw [lookup_kw_cons_eq e2 m k he2] at h
        exact Option.noConfusion h
      · rw [lookup_kw_cons_ne e2 m k he2] at h
        rcases List.mem_cons.mp he with h1 | h1
        · exact he2 (by rw [← h1]; exact hek)
        · exact ih h h1
  · intro h
    induction m with
    | nil => rfl
    | cons e m ih =>
      rw [lookup_kw_cons_ne e m k (h e (by simp))]
      exact ih (fun e2 he2 => h e2 (by simp [he2]))

/-- A dict assignment only introduces its own key. -/
theorem dict_insert_mem (m : List (String × Value)) (n : String) (v : Value)
    (e : String × Value) (he : e ∈ dict_insert m n v) : e ∈ m ∨ e.1 = n := by
  simp only [dict_insert] at he
  split at he
  · rcases List.mem_map.mp he with ⟨q, hq, hmap⟩
    by_cases hqn : q.1 = n
    · right; rw [← hmap]; simp [hqn]
    · left; rw [← hmap]; simpa [hqn] using hq
  · rcases List.mem_append.mp he with h1 | h1
    · exact Or.inl h1
    · right; simp at h1; simp [h1]

/-- Appending an entry with a different key does not change a lookup. -/
theorem lookup_kw_append_last (c : List (String × Value)) (k : String) (v : Value)
    (n : String) (h : k ≠ n) : lookup_kw (c ++ [(k, v)]) n = lookup_kw c n := by
  induction c with
  | nil =>
    simp only [List.nil_append]
    rw [lookup_kw_cons_ne _ _ _ h]
  | cons e c ih =>
    by_cases he : e.1 = n
    · rw [List.cons_append, lookup_kw_cons_eq _ _ _ he, lookup_kw_cons_eq _ _ _ he]
    · rw [List.cons_append, lookup_kw_cons_ne _ _ _ he, lookup_kw_cons_ne _ _ _ he]
      exact ih

/-- Overwriting one key in place does not change lookups of other keys. -/
theorem lookup_kw_map_overwrite (n2 n : String) (v : Value) (h : n2 ≠ n) :
    ∀ m : List (String × Value),
      lookup_kw (m.map (fun p => if p.1 = n2 then (n2, v) else p)) n = lookup_kw m n := by
  intro m
  induction m with
  | nil => rfl
  | cons e m ih =>
    rw [List.map_cons]
    by_cases he : e.1 = n2
    · rw [if_pos he, lookup_kw_cons_ne _ _ _ h, lookup_kw_cons_ne e m n (by rw [he]; exact h)]
      exact ih
    · rw [if_neg he]
      by_cases he2 : e.1 = n
      · rw [lookup_kw_cons_eq _ _ _ he2, lookup_kw_cons_eq _ _ _ he2]
      · rw [lookup_kw_cons_ne _ _ _ he2, lookup_kw_cons_ne _ _ _ he2]
        exact ih

/-- Overwriting a present key in place makes its lookup the new value. -/
theorem lookup_kw_map_overwrite_self (n : String) (v : Value) :
    ∀ m : List (String × Value), m.any (fun p => decide (p.1 = n)) = true →
      lookup_kw (m.map (fun p => if p.1 = n then (n, v) else p)) n = some v := by
  intro m
  induction m with
  | nil => intro h; simp at h
  | cons e m ih =>
    intro h
    rw [List.map_cons]
    by_cases he : e.1 = n
    · rw [if_pos he, lookup_kw_cons_eq (n, v) _ n rfl]
    · rw [if_neg he, lookup_kw_cons_ne _ _ _ he]
      simp only [List.any_cons, he, decide_eq_true_eq, false_or] at h
      exact ih (by simpa using h)

/-- A dict assignment does not change lookups of other keys. -/
theorem lookup_kw_dict_insert_ne (m : List (String × Value)) (n2 n : String) (v : Value)
    (h : n2 ≠ n) : lookup_kw (dict_insert m n2 v) n = lookup_kw m n := by
  simp only [dict_insert]
  split
  · exact lookup_kw_map_overwrite n2 n v h m
  · exact lookup_kw_append_last m n2 v n h

/-- A dict assignment makes its key's lookup the assigned value. -/
theorem lookup_kw_dict_insert_self (m : List (String × Value)) (n : String) (v : Value) :
    lookup_kw (dict_insert m n v) n = some v := by
  simp only [dict_insert]
  split
  · rename_i hany
    exact lookup_kw_map_overwrite_self n v m hany
  · rename_i hany
    induction m with
    | nil =>
      simp only [List.nil_append]
      rw [lookup_kw_cons_eq (n, v) [] n rfl]
    | cons e m ih =>
      have he : e.1 ≠ n := by
        intro hek
        exact hany (List.any_eq_true.mpr ⟨e, by simp, by simp [hek]⟩)
      rw [List.cons_append, lookup_kw_cons_ne _ _ _ he]
      refine ih ?_
      intro hany2
      rcases List.any_eq_true.mp hany2 with ⟨e2, he2, hp⟩
      exact hany (List.any_eq_true.mpr ⟨e2, by simp [he2], hp⟩)

/-- Erasing one key does not change lookups of other keys. -/
theorem lookup_kw_erase_ne (m : List (String × Value)) (n2 n : String) (h : n2 ≠ n) :
    lookup_kw (erase_kw m n2) n = lookup_kw m n := by
  induction m with
  | nil => rfl
  | cons e m ih =>
    by_cases he : e.1 = n2
    · rw [show erase_kw (e :: m) n2 = m from by simp [erase_kw, List.eraseP_cons, he]]
      rw [lookup_kw_cons_ne e m n (by rw [he]; exact h)]
    · rw [show erase_kw (e :: m) n2 = e :: erase_kw m n2 from by
        simp [erase_kw, List.eraseP_cons, he]]
      by_cases he2 : e.1 = n
      · rw [lookup_kw_cons_eq _ _ _ he2, lookup_kw_cons_eq _ _ _ he2]
      · rw [lookup_kw_cons_ne _ _ _ he2, lookup_kw_cons_ne _ _ _ he2]
        exact ih

/-- Erasing a key distinct from a trailing entry's key keeps the trailing
entry in place. -/
theorem erase_kw_append_last (c : List (String × Value)) (k : String) (v : Value)
    (n : String) (h : k ≠ n) :
    erase_kw (c ++ [(k, v)]) n = erase_kw c n ++ [(k, v)] := by
  induction c with
  | nil => simp [erase_kw, List.eraseP_cons, h]
  | cons e c ih =>
    by_cases he : e.1 = n
    · simp [erase_kw, List.eraseP_cons, he]
    · simp only [List.cons_append, erase_kw, List.eraseP_cons, he, decide_eq_true_eq,
        if_false, cond_eq_if]
      simp only [erase_kw] at ih
      rw [ih]

/-- A stray keyword entry (key matching no parameter) survives the separation
walk at the end of the kwargs dict, and the walk's attribute dict never picks
up its key. -/
theorem separate_loop_stray (sa : List SchemaAttribute) (fill : Bool) (k : String)
    (v : Value) :
    ∀ (ps : List ParamSchema) (i : Nat) (args inputs : List Value)
      (attrs c1 : List (String × Value)),
      (∀ p ∈ ps, p.name ≠ k) →
      lookup_kw attrs k = none →
      (∀ e ∈ c1, e.1 ≠ k) →
      ∃ c2 : List (String × Value), (∀ e ∈ c2, e.1 ≠ k) ∧
        lookup_kw (separate_loop sa fill ps i args inputs attrs (c1 ++ [(k, v)])).2.1 k = none ∧
        (separate_loop sa fill ps i args inputs attrs (c1 ++ [(k, v)])).2.2 = c2 ++ [(k, v)] := by
  intro ps
  induction ps with
  | nil =>
    intro i args inputs attrs c1 _ hattrs hc1
    exact ⟨c1, hc1, hattrs, rfl⟩
  | cons p ps ih =>
    intro i args inputs attrs c1 hps hattrs hc1
    have hpk : p.name ≠ k := hps p (by simp)
    have hps2 : ∀ q ∈ ps, q.name ≠ k := fun q hq => hps q (by simp [hq])
    simp only [separate_loop]
    split
    · exact ih (i + 1) [] (inputs ++ args.drop i) attrs c1 hps2 hattrs hc1
    · split
      · split
        · exact ih (i + 1) args _ attrs c1 hps2 hattrs hc1
        · refine ih (i + 1) args inputs _ c1 hps2 ?_ hc1
          rw [lookup_kw_dict_insert_ne _ _ _ _ hpk]
          exact hattrs
      · split
        · split
          · rw [erase_kw_append_last c1 k v p.name (Ne.symm hpk)]
            exact ih (i + 1) args _ attrs (erase_kw c1 p.name) hps2 hattrs
              (fun e he => hc1 e (List.mem_of_mem_eraseP he))
          · refine ih (i + 1) args inputs _ c1 hps2 ?_ hc1
            rw [lookup_kw_dict_insert_ne _ _ _ _ hpk]
            exact hattrs
        · split
          · refine ih (i + 1) args inputs _ c1 hps2 ?_ hc1
            cases fill
            · simpa using hattrs
            · simp only [if_true]
              rw [lookup_kw_dict_insert_ne _ _ _ _ hpk]
              exact hattrs
          · split
            · exact ih (i + 1) args _ attrs c1 hps2 hattrs hc1
            · exact ih (i + 1) args inputs attrs c1 hps2 hattrs hc1

/-- The leftover loop adds a trailing stray keyword exactly when its value is
not `None`. -/
theorem add_leftover_stray (k : String) (v : Value) :
    ∀ (c2 attrs : List (String × Value)),
      (∀ e ∈ c2, e.1 ≠ k) → lookup_kw attrs k = none →
      lookup_kw (add_leftover_kwargs attrs (c2 ++ [(k, v)])) k =
        if v = Value.vnone then none else some v := by
  intro c2
  induction c2 with
  | nil =>
    intro attrs _ hattrs
    simp only [List.nil_append, add_leftover_kwargs, List.foldl_cons, List.foldl_nil]
    by_cases hv : v = Value.vnone
    · simp [hv, hattrs]
    · simp [hv, hattrs, lookup_kw_dict_insert_self]
  | cons e c2 ih =>
    intro attrs hc2 hattrs
    have hek : e.1 ≠ k := hc2 e (by simp)
    have hstep : lookup_kw
        (if (lookup_kw attrs e.1).isNone && !(decide (e.2 = Value.vnone)) then
          dict_insert attrs e.1 e.2 else attrs) k = none := by
      split
      · rw [lookup_kw_dict_insert_ne _ _ _ _ hek]
        exact hattrs
      · exact hattrs
    have := ih (if (lookup_kw attrs e.1).isNone && !(decide (e.2 = Value.vnone)) then
        dict_insert attrs e.1 e.2 else attrs)
      (fun e2 he2 => hc2 e2 (by simp [he2])) hstep
    simpa [add_leftover_kwargs, List.foldl_cons] using this

/-- Appending a `None`-valued entry whose key matches no parameter leaves the
walk's inputs and attributes unchanged and keeps the entry at the end of the
remaining kwargs. -/
theorem separate_loop_append_none (sa : List SchemaAttribute) (fill : Bool) (k : String) :
    ∀ (ps : List ParamSchema) (i : Nat) (args inputs : List Value)
      (attrs ck : List (String × Value)),
      (∀ p ∈ ps, p.name ≠ k) →
      separate_loop sa fill ps i args inputs attrs (ck ++ [(k, Value.vnone)]) =
        ((separate_loop sa fill ps i args inputs attrs ck).1,
         (separate_loop sa fill ps i args inputs attrs ck).2.1,
         (separate_loop sa fill ps i args inputs attrs ck).2.2 ++ [(k, Value.vnone)]) := by
  intro ps
  induction ps with
  | nil =>
    intro i args inputs attrs ck _
    simp [separate_loop]
  | cons p ps ih =>
    intro i args inputs attrs ck hps
    have hpk : p.name ≠ k := hps p (by simp)
    have hps2 : ∀ q ∈ ps, q.name ≠ k := fun q hq => hps q (by simp [hq])
    simp only [separate_loop, lookup_kw_append_last ck k Value.vnone p.name (Ne.symm hpk)]
    split
    · exact ih (i + 1) [] (inputs ++ args.drop i) attrs ck hps2
    · split
      · split
        · exact ih (i + 1) args _ attrs ck hps2
        · exact ih (i + 1) args inputs _ ck hps2
      · split
        · split
          · rw [erase_kw_append_last ck k Value.vnone p.name (Ne.symm hpk)]
            exact ih (i + 1) args _ attrs (erase_kw ck p.name) hps2
          · exact ih (i + 1) args inputs _ ck hps2
        · split
          · exact ih (i + 1) args inputs _ ck hps2
          · split
            · exact ih (i + 1) args _ attrs ck hps2
            · exact ih (i + 1) args inputs attrs ck hps2

/-- The leftover loop ignores a trailing `None`-valued entry. -/
theorem add_leftover_append_none (a c : List (String × Value)) (k : String) :
    add_leftover_kwargs a (c ++ [(k, Value.vnone)]) = add_leftover_kwargs a c := by
  simp only [add_leftover_kwargs, List.foldl_append, List.foldl_cons, List.foldl_nil]
  simp

/-- Argument separation ignores an appended `None`-valued keyword whose key
matches no parameter. -/
theorem separate_append_none (sa : List SchemaAttribute) (params : List ParamSchema)
    (args : List Value) (kwargs : List (String × Value)) (k : String) (fill : Bool)
    (h : ∀ p ∈ params, p.name ≠ k) :
    separate_input_attributes_from_arguments sa params args
        (kwargs ++ [(k, Value.vnone)]) fill =
      separate_input_attributes_from_arguments sa params args kwargs fill := by
  simp only [separate_input_attributes_from_arguments]
  rw [separate_loop_append_none sa fill k params 0 args [] [] kwargs h]
  rw [add_leftover_append_none]

/-! ## Claim C8: stray keyword arguments are kept iff non-null -/

/-- Claim C8: a keyword argument whose name matches no declared parameter is
added to the resulting attribute mapping exactly when its value is not `None`
(first conjunct, stated for a freshly appended stray entry); and a
`None`-valued stray keyword is dropped so completely that the whole
perfect-match verdict of any candidate with those parameters is unchanged by
its presence (second conjunct), so a candidate with no parameter of that name
can still perfect-match the call. -/
theorem claim_C8 (sa : List SchemaAttribute) (params : List ParamSchema)
    (args : List Value) (kwargs : List (String × Value)) (k : String) (v : Value)
    (hstray : ∀ p ∈ params, p.name ≠ k)
    (hfresh : lookup_kw kwargs k = none) :
    lookup_kw (separate_input_attributes_from_arguments sa params args
        (kwargs ++ [(k, v)]) true).2 k = (if v = Value.vnone then none else some v) ∧
    (v = Value.vnone → ∀ fs : FunctionSchema, fs.params = params →
      perfect_match_inputs fs args (kwargs ++ [(k, v)]) =
        perfect_match_inputs fs args kwargs) := by
  constructor
  · obtain ⟨c2, hc2, hnone, hck⟩ := separate_loop_stray sa true k v params 0 args [] [] kwargs
      hstray rfl ((lookup_kw_eq_none_iff kwargs k).mp hfresh)
    simp only [separate_input_attributes_from_arguments]
    rw [hck]
    exact add_leftover_stray k v c2 _ hc2 hnone
  · intro hv fs hfs
    rw [hv]
    have hsep := separate_append_none fs.opSchema.attributes fs.params args kwargs k true
      (by rw [hfs]; exact hstray)
    simp only [perfect_match_inputs, hsep]

/-- Claim C8 witness: the stray keyword `rounding_mode=None` is dropped from
the attribute mapping and leaves the (perfect) match verdict of the
one-float-input candidate untouched. -/
theorem claim_C8_witness :
    lookup_kw (separate_input_attributes_from_arguments [] [exParamX] [exTensorF]
        ([] ++ [("rounding_mode", Value.vnone)]) true).2 "rounding_mode" =
      (if Value.vnone = Value.vnone then none else some Value.vnone) ∧
    perfect_match_inputs exSchema [exTensorF] ([] ++ [("rounding_mode", Value.vnone)]) =
      perfect_match_inputs exSchema [exTensorF] [] := by
  have h := claim_C8 [] [exParamX] [exTensorF] [] "rounding_mode" Value.vnone
    (by decide) rfl
  exact ⟨h.1, h.2 rfl exSchema rfl⟩

/-- The walk never disturbs an attribute entry whose key matches none of the
remaining parameters. -/
theorem separate_loop_attrs_preserved (sa : List SchemaAttribute) (fill : Bool)
    (n : String) (w : Value) :
    ∀ (ps : List ParamSchema) (i : Nat) (args inputs : List Value)
      (attrs ck : List (String × Value)),
      (∀ q ∈ ps, q.name ≠ n) → lookup_kw attrs n = some w →
      lookup_kw (separate_loop sa fill ps i args inputs attrs ck).2.1 n = some w := by
  intro ps
  induction ps with
  | nil =>
    intro i args inputs attrs ck _ hattrs
    exact hattrs
  | cons q ps ih =>
    intro i args inputs attrs ck hps hattrs
    have hqn : q.name ≠ n := hps q (by simp)
    have hps2 : ∀ q2 ∈ ps, q2.name ≠ n := fun q2 hq2 => hps q2 (by simp [hq2])
    simp only [separate_loop]
    split
    · exact ih (i + 1) [] _ attrs ck hps2 hattrs
    · split
      · split
        · exact ih (i + 1) args _ attrs ck hps2 hattrs
        · refine ih (i + 1) args inputs _ ck hps2 ?_
          rw [lookup_kw_dict_insert_ne _ _ _ _ hqn]
          exact hattrs
      · split
        · split
          · exact ih (i + 1) args _ attrs _ hps2 hattrs
          · refine ih (i + 1) args inputs _ ck hps2 ?_
            rw [lookup_kw_dict_insert_ne _ _ _ _ hqn]
            exact hattrs
        · split
          · refine ih (i + 1) args inputs _ ck hps2 ?_
            cases fill
            · simpa using hattrs
            · simp only [if_true]
              rw [lookup_kw_dict_insert_ne _ _ _ _ hqn]
              exact hattrs
          · split
            · exact ih (i + 1) args _ attrs ck hps2 hattrs
            · exact ih (i + 1) args inputs attrs ck hps2 hattrs

/-- The leftover loop never overwrites an attribute entry that is already
present. -/
theorem add_leftover_preserves (n : String) (w : Value) :
    ∀ (ck attrs : List (String × Value)), lookup_kw attrs n = some w →
      lookup_kw (add_leftover_kwargs attrs ck) n = some w := by
  intro ck
  induction ck with
  | nil => intro attrs h; exact h
  | cons e ck ih =>
    intro attrs hattrs
    have hstep : lookup_kw
        (if (lookup_kw attrs e.1).isNone && !(decide (e.2 = Value.vnone)) then
          dict_insert attrs e.1 e.2 else attrs) n = some w := by
      by_cases he : e.1 = n
      · rw [if_neg]
        · exact hattrs
        · rw [he, hattrs]
          simp
      · split
        · rw [lookup_kw_dict_insert_ne _ _ _ _ he]
          exact hattrs
        · exact hattrs
    have := ih (if (lookup_kw attrs e.1).isNone && !(decide (e.2 = Value.vnone)) then
        dict_insert attrs e.1 e.2 else attrs) hstep
    simpa [add_leftover_kwargs, List.foldl_cons] using this

/-- Reaching an attribute parameter that sits past the positional arguments
and is supplied by keyword as `None` stores `None` under its name in the
attribute dict, and the rest of the walk keeps it there. -/
theorem separate_loop_sets_attr (sa : List SchemaAttribute) (fill : Bool)
    (p : ParamSchema) (post : List ParamSchema)
    (hattr : p.is_input = false) (hvar : p.is_variadic_input = false)
    (hpost : ∀ q ∈ post, q.name ≠ p.name) :
    ∀ (pre : List ParamSchema) (i : Nat) (args inputs : List Value)
      (attrs ck : List (String × Value)),
      (∀ q ∈ pre, q.name ≠ p.name) →
      args.length ≤ i + pre.length →
      lookup_kw ck p.name = some Value.vnone →
      lookup_kw (separate_loop sa fill (pre ++ p :: post) i args inputs attrs ck).2.1 p.name
        = some Value.vnone := by
  intro pre
  induction pre with
  | nil =>
    intro i args inputs attrs ck _ hpos hkw
    have hnlt : ¬ i < args.length := by
      simp only [List.length_nil, Nat.add_zero] at hpos
      omega
    simp only [List.nil_append, separate_loop, hvar, Bool.false_eq_true, if_false,
      hnlt, dite_false, hkw, hattr]
    exact separate_loop_attrs_preserved sa fill p.name Value.vnone post (i + 1) args inputs
      _ ck hpost (lookup_kw_dict_insert_self attrs p.name Value.vnone)
  | cons q pre ih =>
    intro i args inputs attrs ck hpre hpos hkw
    have hqn : q.name ≠ p.name := hpre q (by simp)
    have hpre2 : ∀ q2 ∈ pre, q2.name ≠ p.name := fun q2 hq2 => hpre q2 (by simp [hq2])
    have hpos2 : args.length ≤ (i + 1) + pre.length := by
      simp only [List.length_cons] at hpos
      omega
    simp only [List.cons_append, separate_loop]
    split
    · exact ih (i + 1) [] _ attrs ck hpre2 (by simp) hkw
    · split
      · split
        · exact ih (i + 1) args _ attrs ck hpre2 hpos2 hkw
        · exact ih (i + 1) args inputs _ ck hpre2 hpos2 hkw
      · split
        · split
          · refine ih (i + 1) args _ attrs _ hpre2 hpos2 ?_
            rw [lookup_kw_erase_ne _ _ _ hqn]
            exact hkw
          · exact ih (i + 1) args inputs _ ck hpre2 hpos2 hkw
        · split
          · exact ih (i + 1) args inputs _ ck hpre2 hpos2 hkw
          · split
            · exact ih (i + 1) args _ attrs ck hpre2 hpos2 hkw
            · exact ih (i + 1) args inputs attrs ck hpre2 hpos2 hkw

/-- A successful lookup exhibits the entry itself. -/
theorem lookup_kw_some_mem (m : List (String × Value)) (n : String) (w : Value)
    (h : lookup_kw m n = some w) : (n, w) ∈ m := by
  simp only [lookup_kw] at h
  cases hf : m.find? (fun p => decide (p.1 = n)) with
  | none => rw [hf] at h; exact Option.noConfusion h
  | some e =>
    rw [hf] at h
    have hmem := List.mem_of_find?_eq_some hf
    have hpred := List.find?_some hf
    simp only [decide_eq_true_eq] at hpred
    have hw : e.2 = w := Option.some.inj h
    have : e = (n, w) := by
      cases e
      simp only at hpred hw
      rw [hpred, hw]
    rw [← this]
    exact hmem

/-- A `None`-valued attribute never matches a declared attribute kind. -/
theorem match_onnx_attribute_type_vnone (o : OpSchema) (n : String) :
    match_onnx_attribute_type o n false Value.vnone = false := rfl

/-! ## Claim C10: declared attribute supplied by keyword as None -/

/-- Claim C10: a declared attribute parameter (sitting past the positional
arguments) supplied by keyword with `None` is retained in the attribute
mapping with its `None` value — unlike a stray null keyword; consequently its
name still counts toward the attribute-name-set check (so the candidate can
stay schema-eligible and, whenever the count/name check passes, a score is
recorded), but the `None` value fails the attribute-type check, so the
candidate is never a perfect match for that call. -/
theorem claim_C10 (fs : FunctionSchema) (args : List Value)
    (kwargs : List (String × Value)) (p : ParamSchema) (pre post : List ParamSchema)
    (hparams : fs.params = pre ++ p :: post)
    (hattr : p.is_input = false) (hvar : p.is_variadic_input = false)
    (hpos : args.length ≤ pre.length)
    (hpre : ∀ q ∈ pre, q.name ≠ p.name) (hpost : ∀ q ∈ post, q.name ≠ p.name)
    (hkw : lookup_kw kwargs p.name = some Value.vnone) :
    lookup_kw (separate_input_attributes_from_arguments fs.opSchema.attributes fs.params
        args kwargs true).2 p.name = some Value.vnone ∧
    ∀ (b : Bool) (s : Option Int), perfect_match_inputs fs args kwargs = .ok (b, s) →
      b = false ∧ (count_name_check fs args kwargs = true → ∃ sc : Int, s = some sc) := by
  have hset : lookup_kw (separate_input_attributes_from_arguments fs.opSchema.attributes
      fs.params args kwargs true).2 p.name = some Value.vnone := by
    simp only [separate_input_attributes_from_arguments, hparams]
    exact add_leftover_preserves p.name Value.vnone _ _
      (separate_loop_sets_attr fs.opSchema.attributes true p post hattr hvar hpost pre 0
        args [] [] kwargs hpre (by simpa using hpos) hkw)
  refine ⟨hset, ?_⟩
  intro b s hok
  constructor
  · have hmem := lookup_kw_some_mem _ _ _ hset
    cases hc : count_name_check fs args kwargs with
    | false =>
      rw [count_name_check_false_pm fs args kwargs hc] at hok
      exact (Prod.mk.injEq _ _ _ _ ▸ Except.ok.inj hok).1.symm
    | true =>
      have hall : (separate_input_attributes_from_arguments fs.opSchema.attributes
          fs.params args kwargs true).2.all
            (fun kv => match_onnx_attribute_type fs.opSchema kv.1 false kv.2) = false := by
        rw [Bool.eq_false_iff]
        intro htrue
        have := List.all_eq_true.mp htrue (p.name, Value.vnone) hmem
        rw [match_onnx_attribute_type_vnone] at this
        exact Bool.noConfusion this
      simp only [count_name_check] at hc
      simp only [perfect_match_inputs, hc, Bool.not_true, Bool.false_eq_true, if_false] at hok
      cases him : any_input_mismatch fs.opSchema
          (fs.opSchema.inputs.zip
            (separate_input_attributes_from_arguments fs.opSchema.attributes fs.params args
              kwargs true).1) with
      | error e =>
        rw [him] at hok
        exact Except.noConfusion hok
      | ok im =>
        rw [him] at hok
        cases hrs : record_matching_score fs.opSchema
            (separate_input_attributes_from_arguments fs.opSchema.attributes fs.params args
              kwargs true).1
            (separate_input_attributes_from_arguments fs.opSchema.attributes fs.params args
              kwargs true).2 with
        | error e =>
          rw [hrs] at hok
          exact Except.noConfusion hok
        | ok sc =>
          rw [hrs] at hok
          have hb : b = (!im && (separate_input_attributes_from_arguments
              fs.opSchema.attributes fs.params args kwargs true).2.all
                (fun kv => match_onnx_attribute_type fs.opSchema kv.1 false kv.2)) :=
            (Prod.mk.injEq _ _ _ _ ▸ Except.ok.inj hok).1.symm
          rw [hb, hall]
          simp
  · intro hc
    exact ⟨spec_matching_score fs args kwargs,
      (perfect_match_score_characterization fs args kwargs b s hok).1 hc⟩

/-- Claim C10 witness: attribute `a` supplied as `a=None` is kept as `None` in
the separated attributes of `exSchemaAttr`, the candidate evaluates to
not-perfect with recorded score `0`, and the count/name check passes. -/
theorem claim_C10_witness :
    lookup_kw (separate_input_attributes_from_arguments exSchemaAttr.opSchema.attributes
        exSchemaAttr.params [exTensorF] [("a", Value.vnone)] true).2 "a" =
      some Value.vnone ∧
    (false = false ∧ (count_name_check exSchemaAttr [exTensorF] [("a", Value.vnone)] = true →
      ∃ sc : Int, (some (0 : Int) : Option Int) = some sc)) := by
  have h := claim_C10 exSchemaAttr [exTensorF] [("a", Value.vnone)] exParamA [exParamX] []
    rfl rfl rfl (by decide) (by decide) (by decide) (by decide)
  exact ⟨h.1, h.2 false (some 0) (by decide)⟩

/-- Strict key comparison is asymmetric. -/
theorem keyLt_asymm : ∀ a b : Int × Bool × Nat, keyLt a b = true → keyLt b a = false := by
  intro ⟨s1, c1, i1⟩ ⟨s2, c2, i2⟩ h
  rw [Bool.eq_false_iff]
  intro h2
  simp only [keyLt, Bool.or_eq_true, Bool.and_eq_true, decide_eq_true_eq] at h h2
  cases c1 <;> cases c2 <;> simp_all <;> omega

/-- Strict key comparison is transitive. -/
theorem keyLt_trans : ∀ a b c : Int × Bool × Nat,
    keyLt a b = true → keyLt b c = true → keyLt a c = true := by
  intro ⟨s1, c1, i1⟩ ⟨s2, c2, i2⟩ ⟨s3, c3, i3⟩ h1 h2
  simp only [keyLt, Bool.or_eq_true, Bool.and_eq_true, decide_eq_true_eq] at h1 h2 ⊢
  cases c1 <;> cases c2 <;> cases c3 <;> simp_all <;> omega

/-- Non-strict key comparison (negated strict) is transitive. -/
theorem keyLt_false_trans : ∀ a b c : Int × Bool × Nat,
    keyLt a b = false → keyLt b c = false → keyLt a c = false := by
  intro ⟨s1, c1, i1⟩ ⟨s2, c2, i2⟩ ⟨s3, c3, i3⟩ h1 h2
  rw [Bool.eq_false_iff] at h1 h2 ⊢
  intro h3
  simp only [keyLt, Bool.or_eq_true, Bool.and_eq_true, decide_eq_true_eq] at h1 h2 h3
  cases c1 <;> cases c2 <;> cases c3 <;> simp_all <;> omega

/-- Two keys neither of which is below the other are equal. -/
theorem keyLt_total_eq : ∀ a b : Int × Bool × Nat,
    keyLt a b = false → keyLt b a = false → a = b := by
  intro ⟨s1, c1, i1⟩ ⟨s2, c2, i2⟩ h1 h2
  rw [Bool.eq_false_iff] at h1 h2
  simp only [keyLt, Bool.or_eq_true, Bool.and_eq_true, decide_eq_true_eq] at h1 h2
  cases c1 <;> cases c2 <;> simp_all [Prod.mk.injEq] <;> omega

/-- The first position of a member holds the member. -/
theorem list_index_spec (f : ONNXFunction) :
    ∀ all : List ONNXFunction, f ∈ all →
      ∃ h : list_index all f < all.length, all.get ⟨list_index all f, h⟩ = f := by
  intro all
  induction all with
  | nil => intro h; simp at h
  | cons a all ih =>
    intro hmem
    by_cases ha : a = f
    · refine ⟨?_, ?_⟩ <;> simp [list_index, List.findIdx_cons, ha]
    · have hmem2 : f ∈ all := by
        rcases List.mem_cons.mp hmem with h1 | h1
        · exact absurd h1.symm ha
        · exact h1
      rcases ih hmem2 with ⟨hlt, hget⟩
      have hidx : list_index (a :: all) f = list_index all f + 1 := by
        simp [list_index, List.findIdx_cons, ha]
      refine ⟨?_, ?_⟩
      · rw [hidx]; simpa using Nat.succ_lt_succ hlt
      · simp only [hidx, List.get_cons_succ]
        exact hget

/-- Distinct members have distinct first positions. -/
theorem list_index_inj (all : List ONNXFunction) (f1 f2 : ONNXFunction)
    (h1 : f1 ∈ all) (h2 : f2 ∈ all) (h : list_index all f1 = list_index all f2) :
    f1 = f2 := by
  rcases list_index_spec f1 all h1 with ⟨hl1, hg1⟩
  rcases list_index_spec f2 all h2 with ⟨hl2, hg2⟩
  rw [← hg1, ← hg2]
  congr 1
  exact Fin.ext h

/-- The specification key agrees with the sort key on scored candidates. -/
theorem cand_key_eq_rank_key (cands : List ONNXFunction) (args : List Value)
    (kwargs : List (String × Value)) (f : ONNXFunction) (s : Int)
    (h : match_score f.schema args kwargs = some s) :
    cand_key cands args kwargs f = rank_key cands f s := by
  simp [cand_key, rank_key, h]

/-- Inserting into a descending list keeps it descending. -/
theorem insert_ranked_pairwise (all : List ONNXFunction) (x : ONNXFunction × Int) :
    ∀ l : List (ONNXFunction × Int),
      l.Pairwise (fun a b => keyLt (rank_key all a.1 a.2) (rank_key all b.1 b.2) = false) →
      (insert_ranked all x l).Pairwise
        (fun a b => keyLt (rank_key all a.1 a.2) (rank_key all b.1 b.2) = false) := by
  intro l
  induction l with
  | nil => intro _; simp [insert_ranked]
  | cons y ys ih =>
    intro hp
    rcases List.pairwise_cons.mp hp with ⟨hy, hys⟩
    simp only [insert_ranked]
    by_cases hk : keyLt (rank_key all y.1 y.2) (rank_key all x.1 x.2) = true
    · rw [if_pos hk]
      refine List.pairwise_cons.mpr ⟨?_, hp⟩
      intro z hz
      rcases List.mem_cons.mp hz with h1 | h1
      · rw [h1]
        exact keyLt_asymm _ _ hk
      · rw [Bool.eq_false_iff]
        intro hxz
        have hyz := keyLt_trans _ _ _ hk hxz
        rw [hy z h1] at hyz
        exact Bool.noConfusion hyz
    · rw [if_neg hk]
      refine List.pairwise_cons.mpr ⟨?_, ih hys⟩
      intro z hz
      rcases insert_ranked_mem all x z ys hz with h1 | h1
      · rw [h1]
        exact Bool.eq_false_iff.mpr hk
      · exact hy z h1

/-- The tie-break sort produces a descending list. -/
theorem sort_ranked_desc_pairwise (all : List ONNXFunction)
    (l : List (ONNXFunction × Int)) :
    (sort_ranked_desc all l).Pairwise
      (fun a b => keyLt (rank_key all a.1 a.2) (rank_key all b.1 b.2) = false) := by
  induction l with
  | nil => simp [sort_ranked_desc]
  | cons y ys ih =>
    simp only [sort_ranked_desc, List.foldr] at ih ⊢
    exact insert_ranked_pairwise all y _ ih

/-- Every element of the original list appears in the sorted list. -/
theorem sort_ranked_desc_mem_rev (all : List ONNXFunction) (y : ONNXFunction × Int) :
    ∀ l : List (ONNXFunction × Int), y ∈ l → y ∈ sort_ranked_desc all l := by
  have hins : ∀ (x z : ONNXFunction × Int) (l : List (ONNXFunction × Int)),
      z ∈ l → z ∈ insert_ranked all x l := by
    intro x z l
    induction l with
    | nil => intro h; simp at h
    | cons w ws ih =>
      intro hz
      simp only [insert_ranked]
      split
      · simp [hz]
      · rcases List.mem_cons.mp hz with h1 | h1
        · simp [h1]
        · simp [ih h1]
  have hself : ∀ (x : ONNXFunction × Int) (l : List (ONNXFunction × Int)),
      x ∈ insert_ranked all x l := by
    intro x l
    induction l with
    | nil => simp [insert_ranked]
    | cons w ws ih =>
      simp only [insert_ranked]
      split
      · simp
      · simp [ih]
  intro l
  induction l with
  | nil => intro h; simp at h
  | cons w ws ih =>
    intro hy
    simp only [sort_ranked_desc, List.foldr] at ih ⊢
    rcases List.mem_cons.mp hy with h1 | h1
    · rw [h1]; exact hself w _
    · exact hins w y _ (ih h1)

/-- With no perfect match anywhere in the scanned list, the scan reduces to
nearest-match selection over the accumulated ranking dict. -/
theorem find_match_aux_no_perfect (all : List ONNXFunction) (args : List Value)
    (kwargs : List (String × Value)) :
    ∀ (l : List ONNXFunction) (ranking : List (ONNXFunction × Option Int)),
      (∀ f ∈ l, perfect_match_inputs f.schema args kwargs =
        .ok (false, match_score f.schema args kwargs)) →
      find_match_aux all args kwargs l ranking =
        nearest_match_selection all
          (l.foldl (fun r f => dict_insert_fn r f (match_score f.schema args kwargs)) ranking) := by
  intro l
  induction l with
  | nil => intro ranking _; rfl
  | cons f rest ih =>
    intro ranking hl
    have hf := hl f (by simp)
    simp only [find_match_aux, hf, Bool.false_eq_true, if_false, List.foldl_cons]
    exact ih _ (fun g hg => hl g (by simp [hg]))

/-- Folding dict insertions of pairwise-distinct, fresh keys appends the
corresponding entries in order. -/
theorem foldl_dict_insert_fresh (g : ONNXFunction → Option Int) :
    ∀ (l : List ONNXFunction) (ranking : List (ONNXFunction × Option Int)),
      l.Nodup → (∀ f ∈ l, ∀ p ∈ ranking, p.1 ≠ f) →
      l.foldl (fun r f => dict_insert_fn r f (g f)) ranking =
        ranking ++ l.map (fun f => (f, g f)) := by
  intro l
  induction l with
  | nil => intro ranking _ _; simp
  | cons f rest ih =>
    intro ranking hnd hfresh
    have hnotin : ¬ ranking.any (fun p => decide (p.1 = f)) = true := by
      intro hany
      rcases List.any_eq_true.mp hany with ⟨p, hp, hpf⟩
      exact hfresh f (by simp) p hp (by simpa using hpf)
    rw [List.foldl_cons]
    rw [show dict_insert_fn ranking f (g f) = ranking ++ [(f, g f)] from by
      simp [dict_insert_fn, hnotin]]
    rw [ih (ranking ++ [(f, g f)]) (List.Nodup.of_cons hnd) ?_]
    · simp
    · intro f2 hf2 p hp
      rcases List.mem_append.mp hp with h1 | h1
      · exact hfresh f2 (by simp [hf2]) p h1
      · simp only [List.mem_singleton] at h1
        rw [h1]
        intro hff
        simp only at hff
        rw [← hff] at hf2
        exact (List.nodup_cons.mp hnd).1 hf2

/-- Key comparison is irreflexive. -/
theorem keyLt_irrefl : ∀ a : Int × Bool × Nat, keyLt a a = false := by
  intro ⟨s, c, i⟩
  rw [Bool.eq_false_iff]
  intro h
  simp only [keyLt, Bool.or_eq_true, Bool.and_eq_true, decide_eq_true_eq] at h
  cases c <;> simp_all <;> omega

/-- The specification fold returns a member that no listed element strictly
exceeds under the key. -/
theorem argmax_foldl_spec (key : ONNXFunction → Int × Bool × Nat) :
    ∀ (l : List ONNXFunction) (b0 : Option ONNXFunction) (c : ONNXFunction),
      l.foldl (fun best f =>
        match best with
        | none => some f
        | some b => if keyLt (key b) (key f) then some f else some b) b0 = some c →
      (b0 = some c ∨ c ∈ l) ∧
      (∀ d ∈ l, keyLt (key c) (key d) = false) ∧
      (∀ b, b0 = some b → keyLt (key c) (key b) = false) := by
  intro l
  induction l with
  | nil =>
    intro b0 c h
    simp only [List.foldl_nil] at h
    refine ⟨Or.inl h, by simp, ?_⟩
    intro b hb
    rw [hb] at h
    rw [← Option.some.inj h]
    exact keyLt_irrefl _
  | cons e l ih =>
    intro b0 c h
    rw [List.foldl_cons] at h
    cases b0 with
    | none =>
      rcases ih (some e) c h with ⟨hmem, hmax, hb⟩
      refine ⟨?_, ?_, ?_⟩
      · right
        rcases hmem with h1 | h1
        · rw [← Option.some.inj h1]; simp
        · simp [h1]
      · intro d hd
        rcases List.mem_cons.mp hd with h1 | h1
        · rw [h1]; exact hb e rfl
        · exact hmax d h1
      · intro b hb0
        exact Option.noConfusion hb0
    | some b =>
      by_cases hk : keyLt (key b) (key e) = true
      · rw [show (match some b with
            | none => some e
            | some b2 => if keyLt (key b2) (key e) then some e else some b2) = some e from by
          simp [hk]] at h
        rcases ih (some e) c h with ⟨hmem, hmax, hbs⟩
        refine ⟨?_, ?_, ?_⟩
        · right
          rcases hmem with h1 | h1
          · rw [← Option.some.inj h1]; simp
          · simp [h1]
        · intro d hd
          rcases List.mem_cons.mp hd with h1 | h1
          · rw [h1]; exact hbs e rfl
          · exact hmax d h1
        · intro b2 hb2
          rw [← Option.some.inj hb2]
          rw [Bool.eq_false_iff]
          intro hcb
          have hce := keyLt_trans _ _ _ hcb hk
          rw [hbs e rfl] at hce
          exact Bool.noConfusion hce
      · rw [show (match some b with
            | none => some e
            | some b2 => if keyLt (key b2) (key e) then some e else some b2) = some b from by
          simp [hk]] at h
        rcases ih (some b) c h with ⟨hmem, hmax, hbs⟩
        refine ⟨?_, ?_, ?_⟩
        · rcases hmem with h1 | h1
          · exact Or.inl h1
          · exact Or.inr (by simp [h1])
        · intro d hd
          rcases List.mem_cons.mp hd with h1 | h1
          · rw [h1]
            exact keyLt_false_trans _ _ _ (hbs b rfl) (Bool.eq_false_iff.mpr hk)
          · exact hmax d h1
        · intro b2 hb2
          rw [← Option.some.inj hb2]
          exact hbs b rfl

/-! ## Claim C1: nearest-match selection is the lexicographic maximum -/

/-- Claim C1: when no candidate perfect-matches and the specification-side
argmax over schema-eligible candidates picks `c`, the dispatcher returns
exactly `c`'s implementation, `c` is scored, and `c` strictly exceeds every
other eligible candidate under the descending lexicographic key
`(score, is_custom, position in the candidate list)` — so the highest score
wins, custom beats built-in on score ties, and the most recently registered
wins full ties. -/
theorem claim_C1 (cands : List ONNXFunction) (args : List Value)
    (kwargs : List (String × Value)) (c : ONNXFunction)
    (hnd : cands.Nodup)
    (hnp : ∀ f ∈ cands, perfect_match_inputs f.schema args kwargs =
        .ok (false, match_score f.schema args kwargs))
    (hspec : spec_nearest_selection cands args kwargs = some c) :
    find_the_perfect_or_nearest_match_onnxfunction cands args kwargs = .ok c.fn ∧
    (match_score c.schema args kwargs).isSome = true ∧
    ∀ d ∈ cands, (match_score d.schema args kwargs).isSome = true → d ≠ c →
      keyLt (cand_key cands args kwargs d) (cand_key cands args kwargs c) = true := by
  have hs := argmax_foldl_spec (cand_key cands args kwargs)
    (cands.filter (fun f => (match_score f.schema args kwargs).isSome)) none c hspec
  obtain ⟨hcmem0, hcmax, -⟩ := hs
  have hcmem : c ∈ cands.filter (fun f => (match_score f.schema args kwargs).isSome) := by
    rcases hcmem0 with h1 | h1
    · exact Option.noConfusion h1
    · exact h1
  have hc_in : c ∈ cands := (List.mem_filter.mp hcmem).1
  have hc_some : (match_score c.schema args kwargs).isSome = true :=
    (List.mem_filter.mp hcmem).2
  obtain ⟨cs, hcs⟩ := Option.isSome_iff_exists.mp hc_some
  refine ⟨?_, hc_some, ?_⟩
  · rw [find_the_perfect_or_nearest_match_onnxfunction,
      find_match_aux_no_perfect cands args kwargs cands.reverse []
        (fun f hf => hnp f (List.mem_reverse.mp hf)),
      foldl_dict_insert_fresh (fun f => match_score f.schema args kwargs) cands.reverse []
        (List.nodup_reverse.mpr hnd) (by simp),
      List.nil_append]
    have helig : (cands.reverse.map (fun f => (f, match_score f.schema args kwargs))).filterMap
        (fun p => p.2.map (fun s => (p.1, s))) =
        cands.reverse.filterMap
          (fun f => (match_score f.schema args kwargs).map (fun s => (f, s))) := by
      rw [List.filterMap_map]
      rfl
    have hcel : (c, cs) ∈ cands.reverse.filterMap
        (fun f => (match_score f.schema args kwargs).map (fun s => (f, s))) :=
      List.mem_filterMap.mpr ⟨c, List.mem_reverse.mpr hc_in, by rw [hcs]; rfl⟩
    simp only [nearest_match_selection, helig]
    cases hsort : sort_ranked_desc cands
        (cands.reverse.filterMap
          (fun f => (match_score f.schema args kwargs).map (fun s => (f, s)))) with
    | nil =>
      have hmem := sort_ranked_desc_mem_rev cands (c, cs) _ hcel
      rw [hsort] at hmem
      simp at hmem
    | cons top rest =>
      show Except.ok top.1.fn = Except.ok c.fn
      have htop_el : top ∈ cands.reverse.filterMap
          (fun f => (match_score f.schema args kwargs).map (fun s => (f, s))) := by
        apply sort_ranked_desc_mem cands top
        rw [hsort]
        simp
      obtain ⟨ft, hft_rev, hft_eq⟩ := List.mem_filterMap.mp htop_el
      cases hgf : match_score ft.schema args kwargs with
      | none =>
        rw [hgf] at hft_eq
        exact absurd hft_eq (by simp)
      | some st =>
        rw [hgf] at hft_eq
        have htop_eq : (ft, st) = top := Option.some.inj hft_eq
        have hft_in : ft ∈ cands := List.mem_reverse.mp hft_rev
        have hc_ge : keyLt (cand_key cands args kwargs c)
            (cand_key cands args kwargs ft) = false :=
          hcmax ft (List.mem_filter.mpr ⟨hft_in, by simp [hgf]⟩)
        have ht_ge : (c, cs) = top ∨
            keyLt (rank_key cands top.1 top.2) (rank_key cands c cs) = false := by
          have hmem2 := sort_ranked_desc_mem_rev cands (c, cs) _ hcel
          rw [hsort] at hmem2
          rcases List.mem_cons.mp hmem2 with h1 | h1
          · exact Or.inl h1
          · right
            have hpair := sort_ranked_desc_pairwise cands
              (cands.reverse.filterMap
                (fun f => (match_score f.schema args kwargs).map (fun s => (f, s))))
            rw [hsort] at hpair
            exact (List.pairwise_cons.mp hpair).1 (c, cs) h1
        have htopc : top.1 = c := by
          rcases ht_ge with h1 | h1
          · rw [← h1]
          · rw [← htop_eq] at h1
            have hc_ge2 : keyLt (rank_key cands c cs) (rank_key cands ft st) = false := by
              rw [← cand_key_eq_rank_key cands args kwargs c cs hcs,
                ← cand_key_eq_rank_key cands args kwargs ft st hgf]
              exact hc_ge
            have hkeq := keyLt_total_eq (rank_key cands ft st) (rank_key cands c cs) h1 hc_ge2
            have hidx : list_index cands ft = list_index cands c :=
              congrArg (fun t : Int × Bool × Nat => t.2.2) hkeq
            have hfc : ft = c := list_index_inj cands ft c hft_in hc_in hidx
            rw [← htop_eq, hfc]
        rw [htopc]
  · intro d hd hds hdc
    have hcd : keyLt (cand_key cands args kwargs c) (cand_key cands args kwargs d) = false :=
      hcmax d (List.mem_filter.mpr ⟨hd, hds⟩)
    cases hb : keyLt (cand_key cands args kwargs d) (cand_key cands args kwargs c) with
    | true => rfl
    | false =>
      have hkeq := keyLt_total_eq (cand_key cands args kwargs d)
        (cand_key cands args kwargs c) hb hcd
      have hidx : list_index cands d = list_index cands c :=
        congrArg (fun t : Int × Bool × Nat => t.2.2) hkeq
      exact ((hdc (list_index_inj cands d c hd hc_in hidx)).elim)

/-- Claim C1 witness: built-in and custom candidates with the same schema tie
on score for an int-tensor call; the custom, later-listed `exCustom` is the
lexicographic maximum and its implementation (function 1) is returned. -/
theorem claim_C1_witness :
    find_the_perfect_or_nearest_match_onnxfunction [exBuiltin, exCustom]
      [exTensorI] [] = .ok 1 :=
  (claim_C1 [exBuiltin, exCustom] [exTensorI] [] exCustom (by decide) (by decide)
    (by decide)).1
